import Mathlib

set_option maxRecDepth 100000

/-
Verification development for the AV scheduling engine.

Shallow embedding of the core modules:
  - config/constraints.ts and config/brothers.ts (static configuration and roster)
  - scheduler/history.ts (fairness ledger: scores, monthly quota, add/remove)
  - scheduler/availability.ts (eligibility evaluator)
  - the scheduling engine (scheduleWeek / scheduleMultipleWeeks / validateSchedule,
    in the variant that includes the priority-brother guarantee pass and the
    per-week meeting-part counts)

Modelling conventions:
  - TypeScript strings stay Lean String; dates stay strings in the data model,
    and the Date arithmetic of the score function is modelled by parsing
    YYYY-MM-DD into a civil date and diffing day numbers (ECMAScript parses a
    date-only YYYY-MM-DD string as UTC midnight, so the millisecond difference
    of two valid such dates is an exact whole number of days; strings that do
    not parse yield NaN in JS, making both window comparisons false, which the
    model mirrors by returning false).
  - JS Set of strings is modelled as a List String used only through
    membership, insert-if-absent and erase.
  - Records mutated in place in TS are threaded functionally; scheduleWeek
    returns the updated ledger in its result.
  - Unicode NFD accent stripping is specialized to the character repertoire
    that occurs in this repository (ASCII plus the n-tilde character).
-/

inductive AVPosition where
  | audio
  | video
  | avAssistant
  | rightMic
  | leftMic
  | frontStage
  | auditorium
  | entrance1
  | entrance2
deriving DecidableEq, Fintype, Repr

/-- The string key of a position, as TS template literals render the enum value. -/
def AVPosition.key : AVPosition → String
  | .audio => "audio"
  | .video => "video"
  | .avAssistant => "avAssistant"
  | .rightMic => "rightMic"
  | .leftMic => "leftMic"
  | .frontStage => "frontStage"
  | .auditorium => "auditorium"
  | .entrance1 => "entrance1"
  | .entrance2 => "entrance2"

inductive Privilege where
  | elder
  | ministerial_servant
  | publisher
  | unbaptized
deriving DecidableEq, Repr

inductive RestrictionType where
  | no_audio
  | no_video
  | no_av_assistant
  | no_mic
  | no_frontStage
  | no_entrance
  | no_auditorium
  | mic_once_monthly
deriving DecidableEq, Repr

/-- The string key of a restriction, as TS template literals render it. -/
def RestrictionType.key : RestrictionType → String
  | .no_audio => "no_audio"
  | .no_video => "no_video"
  | .no_av_assistant => "no_av_assistant"
  | .no_mic => "no_mic"
  | .no_frontStage => "no_frontStage"
  | .no_entrance => "no_entrance"
  | .no_auditorium => "no_auditorium"
  | .mic_once_monthly => "mic_once_monthly"

structure Brother where
  id : String
  firstName : String
  lastName : String
  fullName : String
  privilege : Privilege
  restrictions : List RestrictionType
  isWTConductor : Option String
  active : Bool
deriving DecidableEq, Repr

/- config/constraints.ts -/

def micPositions : List AVPosition := [.rightMic, .leftMic]

def allAVPositions : List AVPosition :=
  [.audio, .video, .avAssistant, .rightMic, .leftMic, .frontStage, .auditorium,
   .entrance1, .entrance2]

def restrictionToPositions : RestrictionType → List AVPosition
  | .no_audio => [.audio]
  | .no_video => [.video]
  | .no_av_assistant => [.avAssistant]
  | .no_mic => [.rightMic, .leftMic]
  | .no_frontStage => [.frontStage]
  | .no_entrance => [.entrance1, .entrance2]
  | .no_auditorium => [.auditorium]
  | .mic_once_monthly => []

def privilegedPositions : List AVPosition := [.auditorium]

def videoEligibleBrotherIds : List String :=
  ["jayr-sullano", "jared-nieva", "zach-lucero", "john-mahor",
   "matt-mancuso", "dandel-cabusas", "gally-villanueva", "herman-lucero",
   "abraham-penera"]

def priorityBrotherIds : List String := ["zach-lucero", "john-mahor"]

def schedulingPriority : List AVPosition :=
  [.audio, .video, .avAssistant, .rightMic, .leftMic, .frontStage, .auditorium,
   .entrance1, .entrance2]

/- config/brothers.ts -/

def brothers : List Brother :=
  [{ id := "jonas-santiso", firstName := "Jonas", lastName := "Santiso",
     fullName := "Jonas Santiso", privilege := .elder, restrictions := [],
     isWTConductor := some "primary", active := true },
   { id := "dandel-cabusas", firstName := "Dandel", lastName := "Cabusas",
     fullName := "Dandel Cabusas", privilege := .elder, restrictions := [],
     isWTConductor := none, active := true },
   { id := "raffy-mondares", firstName := "Raffy", lastName := "Mondares",
     fullName := "Raffy Mondares", privilege := .elder, restrictions := [],
     isWTConductor := none, active := true },
   { id := "randy-quinol", firstName := "Randy", lastName := "Quinol",
     fullName := "Randy Quinol", privilege := .elder, restrictions := [],
     isWTConductor := none, active := true },
   { id := "matt-mancuso", firstName := "Matt", lastName := "Mancuso",
     fullName := "Matt Mancuso", privilege := .elder, restrictions := [],
     isWTConductor := none, active := true },
   { id := "melky-basanes", firstName := "Melky", lastName := "Basanes",
     fullName := "Melky Basanes", privilege := .elder, restrictions := [],
     isWTConductor := none, active := true },
   { id := "gally-villanueva", firstName := "Gally", lastName := "Villanueva",
     fullName := "Gally Villanueva", privilege := .elder, restrictions := [],
     isWTConductor := some "backup", active := true },
   { id := "abraham-penera", firstName := "Abraham", lastName := "Peñera",
     fullName := "Abraham Peñera", privilege := .elder, restrictions := [],
     isWTConductor := none, active := true },
   { id := "herman-lucero", firstName := "Herman", lastName := "Lucero",
     fullName := "Herman Lucero", privilege := .elder, restrictions := [],
     isWTConductor := none, active := true },
   { id := "edgar-silverio", firstName := "Edgar", lastName := "Silverio",
     fullName := "Edgar Silverio", privilege := .elder, restrictions := [],
     isWTConductor := none, active := true },
   { id := "jayr-sullano", firstName := "Jayr", lastName := "Sullano",
     fullName := "Jayr Sullano", privilege := .ministerial_servant,
     restrictions := [], isWTConductor := none, active := true },
   { id := "edmer-sapla", firstName := "Edmer", lastName := "Sapla",
     fullName := "Edmer Sapla", privilege := .ministerial_servant,
     restrictions := [], isWTConductor := none, active := true },
   { id := "jared-nieva", firstName := "Jared", lastName := "Nieva",
     fullName := "Jared Nieva", privilege := .ministerial_servant,
     restrictions := [], isWTConductor := none, active := true },
   { id := "ralph-arugay", firstName := "Ralph", lastName := "Arugay",
     fullName := "Ralph Arugay", privilege := .ministerial_servant,
     restrictions := [], isWTConductor := none, active := true },
   { id := "zach-lucero", firstName := "Zach", lastName := "Lucero",
     fullName := "Zach Lucero", privilege := .publisher,
     restrictions := [.no_entrance], isWTConductor := none, active := true },
   { id := "cezar-macasieb", firstName := "Cezar", lastName := "Macasieb",
     fullName := "Cezar Macasieb", privilege := .publisher,
     restrictions := [.no_auditorium], isWTConductor := none, active := true },
   { id := "john-mahor", firstName := "John", lastName := "Mahor",
     fullName := "John Mahor", privilege := .publisher,
     restrictions := [.no_auditorium], isWTConductor := none, active := true },
   { id := "xian-salazar", firstName := "Xian", lastName := "Salazar",
     fullName := "Xian Salazar", privilege := .publisher,
     restrictions := [.no_audio, .no_video, .no_av_assistant, .no_entrance,
                      .mic_once_monthly],
     isWTConductor := none, active := true }]

/-- Reduction-friendly equivalents of the String primitives the source uses
(String.prototype.startsWith, toLowerCase, trim, split, Number parsing),
implemented over the character list so that closed instances evaluate. -/
def strStartsWith (s t : String) : Bool :=
  t.data.isPrefixOf s.data

def strToLower (s : String) : String :=
  String.mk (s.data.map Char.toLower)

def isSpaceChar (c : Char) : Bool :=
  c == ' ' || c == '\t' || c == '\r' || c == '\n'

def strTrim (s : String) : String :=
  String.mk (((s.data.dropWhile isSpaceChar).reverse.dropWhile isSpaceChar).reverse)

def splitOnCharGo (sep : Char) : List Char → List Char → List String
  | [], acc => [String.mk acc.reverse]
  | c :: rest, acc =>
    if c == sep then String.mk acc.reverse :: splitOnCharGo sep rest []
    else splitOnCharGo sep rest (c :: acc)

/-- JS String.prototype.split with a single-character separator. -/
def splitOnChar (sep : Char) (s : String) : List String :=
  splitOnCharGo sep s.data []

/-- Decimal parsing of an all-digit string (String.toNat? semantics). -/
def strToNat (s : String) : Option Nat :=
  if !s.data.isEmpty && s.data.all Char.isDigit then
    some (s.data.foldl (fun n c => n * 10 + (c.toNat - 48)) 0)
  else none

def getBrotherById (id : String) : Option Brother :=
  brothers.find? (fun b => b.id == id)

/-- JS substring containment (String.prototype.includes). -/
def strContains (s : String) (t : String) : Bool :=
  decide (t.data <:+: s.data)

def getBrotherByName (name : String) : Option Brother :=
  let normalizedName := strTrim (strToLower name)
  brothers.find? (fun b =>
    let fullNameMatch := strToLower b.fullName == normalizedName
    let lastFirstMatch := strToLower (b.lastName ++ ", " ++ b.firstName) == normalizedName
    let partialMatch := strContains normalizedName (strToLower b.lastName) &&
      strContains normalizedName (strToLower b.firstName)
    fullNameMatch || lastFirstMatch || partialMatch)

def getActiveBrothers : List Brother :=
  brothers.filter (fun b => b.active)

/- Civil-date arithmetic backing the Date computations of history.ts. -/

structure CivilDate where
  year : Int
  month : Nat
  day : Nat
deriving DecidableEq, Repr

def isLeapYear (y : Int) : Bool :=
  (y % 4 == 0 && y % 100 != 0) || (y % 400 == 0)

def daysInMonth (y : Int) (m : Nat) : Nat :=
  if m == 2 then (if isLeapYear y then 29 else 28)
  else if m == 4 || m == 6 || m == 9 || m == 11 then 30
  else 31

def allDigits (s : String) : Bool :=
  !s.data.isEmpty && s.data.all Char.isDigit

/-- Parse a YYYY-MM-DD date string, the calendar-date core of the ECMAScript
date-time string format; anything else is treated as an invalid date. -/
def parseISODate (s : String) : Option CivilDate :=
  match splitOnChar '-' s with
  | [ys, ms, ds] =>
    if ys.length == 4 && ms.length == 2 && ds.length == 2 &&
       allDigits ys && allDigits ms && allDigits ds then
      match strToNat ys, strToNat ms, strToNat ds with
      | some y, some m, some d =>
        if 1 ≤ m && m ≤ 12 && 1 ≤ d && d ≤ daysInMonth (y : Int) m then
          some { year := (y : Int), month := m, day := d }
        else none
      | _, _, _ => none
    else none
  | _ => none

/-- Day number of a civil date (days since 1970-01-01, negative before).
Integer division on Int is euclidean, hence flooring for these positive
divisors. -/
def daysFromCivil (dt : CivilDate) : Int :=
  let y : Int := if dt.month ≤ 2 then dt.year - 1 else dt.year
  let m : Int := (dt.month : Int)
  let d : Int := (dt.day : Int)
  let era : Int := y / 400
  let yoe : Int := y - era * 400
  let mp : Int := (m + 9) % 12
  let doy : Int := (153 * mp + 2) / 5 + d - 1
  let doe : Int := yoe * 365 + yoe / 4 - yoe / 100 + doy
  era * 146097 + doe - 719468

/-- The day difference refDate - assignDate that the score function computes
from getTime millisecond values, when both strings parse as dates. -/
def dateDiffDays (referenceDate assignDate : String) : Option Int :=
  match parseISODate referenceDate, parseISODate assignDate with
  | some r, some a => some (daysFromCivil r - daysFromCivil a)
  | _, _ => none

/-- diffDays >= 0 && diffDays <= n; false when either date is invalid (NaN
comparisons are false in JS). -/
def isWithinDays (n : Nat) (referenceDate assignDate : String) : Bool :=
  match dateDiffDays referenceDate assignDate with
  | some diff => decide (0 ≤ diff ∧ diff ≤ (n : Int))
  | none => false

/- scheduler/history.ts -/

structure AssignmentHistory where
  brotherId : String
  position : AVPosition
  date : String
deriving DecidableEq, Repr

structure HistoryData where
  assignments : List AssignmentHistory
  lastUpdated : Option String
deriving DecidableEq, Repr

def addAssignment (history : HistoryData) (brotherId : String)
    (position : AVPosition) (date : String) : HistoryData :=
  { history with assignments :=
      history.assignments ++ [{ brotherId := brotherId, position := position, date := date }] }

def removeAssignment (history : HistoryData) (brotherId : String)
    (position : AVPosition) (date : String) : HistoryData :=
  match history.assignments.findIdx? (fun a =>
      a.brotherId == brotherId && a.position == position && a.date == date) with
  | some index => { history with assignments := history.assignments.eraseIdx index }
  | none => history

def getAssignmentsForMonth (history : HistoryData) (yearMonth : String) :
    List AssignmentHistory :=
  history.assignments.filter (fun a => strStartsWith a.date yearMonth)

def getAssignmentsForBrother (history : HistoryData) (brotherId : String) :
    List AssignmentHistory :=
  history.assignments.filter (fun a => a.brotherId == brotherId)

def canXianDoMicThisMonth (history : HistoryData) (yearMonth : String) : Bool :=
  let xianId := "xian-salazar"
  let monthAssignments := getAssignmentsForMonth history yearMonth
  let xianMicAssignments := monthAssignments.filter (fun a =>
    a.brotherId == xianId && micPositions.contains a.position)
  xianMicAssignments.length == 0

def calculateAssignmentScore (history : HistoryData) (brotherId : String)
    (position : AVPosition) (referenceDate : String) (meetingPartCount : Nat) : Int :=
  let brotherAssignments := getAssignmentsForBrother history brotherId
  let positionAssignments := brotherAssignments.filter (fun a => a.position == position)
  let score : Int := (positionAssignments.length : Int) * 10
  let recentAssignments := brotherAssignments.filter (fun a =>
    isWithinDays 30 referenceDate a.date)
  let score := score + (recentAssignments.length : Int) * 5
  let lastWeekAssignments := brotherAssignments.filter (fun a =>
    isWithinDays 7 referenceDate a.date)
  let score := score + (lastWeekAssignments.length : Int) * 20
  let score := if meetingPartCount > 0 then
      score + 200 + (meetingPartCount : Int) * 50
    else score
  let score := match getBrotherById brotherId with
    | some brother =>
      match brother.privilege with
      | .elder => score + 25
      | .ministerial_servant => score - 25
      | .publisher => score - 15
      | .unbaptized => score
    | none => score
  let score := if priorityBrotherIds.contains brotherId then
      score - max 15 (50 - (positionAssignments.length : Int) * 15)
    else score
  score

/-- The score a candidate gets inside sortBrothersByFairness: the meeting-part
count is looked up in the map, defaulting to 0. -/
def fairnessScore (history : HistoryData) (position : AVPosition)
    (referenceDate : String) (meetingPartCounts : List (String × Nat))
    (brotherId : String) : Int :=
  calculateAssignmentScore history brotherId position referenceDate
    ((meetingPartCounts.lookup brotherId).getD 0)

/-- Stable ascending sort by score. JS Array.prototype.sort with the numeric
comparator scoreA - scoreB is a stable ascending sort, which mergeSort with a
total preorder realizes. -/
def sortBrothersByFairness (brotherIds : List String) (history : HistoryData)
    (position : AVPosition) (referenceDate : String)
    (meetingPartCounts : List (String × Nat)) : List String :=
  brotherIds.mergeSort (fun a b =>
    decide (fairnessScore history position referenceDate meetingPartCounts a ≤
            fairnessScore history position referenceDate meetingPartCounts b))

/- scheduler/availability.ts -/

/-- NFD normalization followed by removal of combining marks, specialized to
the character repertoire occurring in this repository (ASCII plus n-tilde,
which decomposes to n plus a combining tilde). -/
def stripAccents (str : String) : String :=
  String.mk (str.data.map (fun c =>
    if c = 'ñ' then 'n' else if c = 'Ñ' then 'N' else c))

/-- The nickname table consulted for LastName, FirstName matches. -/
def nicknameMap (firstName : String) : List String :=
  if firstName == "randy" then ["randino"]
  else if firstName == "raffy" then ["rafael"]
  else if firstName == "matt" then ["matthew"]
  else if firstName == "melky" then ["melquisidecks"]
  else if firstName == "gally" then ["sir galahad"]
  else if firstName == "john" then ["john lawrence"]
  else if firstName == "mike" then ["mike dandel"]
  else if firstName == "dandel" then ["mike dandel"]
  else []

def doesNameMatchBrother (name : String) (brother : Brother) : Bool :=
  let normalizedName := stripAccents (strTrim (strToLower name))
  let fullName := stripAccents (strToLower brother.fullName)
  let firstName := stripAccents (strToLower brother.firstName)
  let lastName := stripAccents (strToLower brother.lastName)
  if normalizedName == fullName then true
  else
    let commaMatch :=
      if strContains normalizedName "," then
        match (splitOnChar ',' normalizedName).map strTrim with
        | [pdfLastName, rest] =>
          let pdfFirstName := (splitOnChar ' ' rest).headD ""
          if pdfLastName == lastName &&
             strStartsWith pdfFirstName (firstName.take 3) then true
          else if pdfLastName == lastName then
            (nicknameMap firstName).any (fun n =>
              strContains pdfFirstName n || strContains n pdfFirstName)
          else false
        | _ => false
      else false
    if commaMatch then true
    else strContains normalizedName firstName && strContains normalizedName lastName

def canBrotherDoPosition (brother : Brother) (position : AVPosition) : Bool :=
  brother.restrictions.all (fun restriction =>
    restriction == .mic_once_monthly ||
    !(restrictionToPositions restriction).contains position)

def hasBrotherRequiredPrivilege (brother : Brother) (position : AVPosition) : Bool :=
  if !privilegedPositions.contains position then true
  else brother.privilege == .elder || brother.privilege == .ministerial_servant

/-- Fields of the weekly meeting data that the engine reads. The MeetingPart
fields date, meetingType and duration are never used by the scheduler and are
omitted. -/
structure MeetingPart where
  partType : String
  partTitle : String
  assignedBrother : Option String
deriving DecidableEq, Repr

structure WeeklyMeetingData where
  weekOf : String
  midweekDate : String
  weekendDate : String
  midweekParts : List MeetingPart
  weekendParts : List MeetingPart
  wtConductor : Option String
  unavailableForAV : List String
  unavailableForMic : List String
deriving DecidableEq, Repr

def getUnavailabilityReason (brother : Brother) (position : AVPosition)
    (week : WeeklyMeetingData) : Option String :=
  if week.unavailableForAV.any (fun name => doesNameMatchBrother name brother) then
    some "Has meeting part with no-AV constraint"
  else if micPositions.contains position &&
      week.unavailableForMic.any (fun name => doesNameMatchBrother name brother) then
    some "Has meeting part with no-mic constraint"
  else if !canBrotherDoPosition brother position then
    let restriction := brother.restrictions.find? (fun r =>
      !(r == .mic_once_monthly) && (restrictionToPositions r).contains position)
    some ("Individual restriction: " ++
      (match restriction with
       | some r => r.key
       | none => "undefined"))
  else if !hasBrotherRequiredPrivilege brother position then
    some "Position requires Elder or MS privilege"
  else if position == .video && !videoEligibleBrotherIds.contains brother.id then
    some "Video position restricted to specific elders"
  else none

structure AvailabilityResult where
  position : AVPosition
  availableBrothers : List Brother
  unavailableBrothers : List (Brother × String)
deriving Repr

def getAvailableBrothersForPosition (position : AVPosition)
    (week : WeeklyMeetingData) : AvailabilityResult :=
  let activeBrothers := getActiveBrothers
  { position := position
    availableBrothers := activeBrothers.filter (fun b =>
      (getUnavailabilityReason b position week).isNone)
    unavailableBrothers := activeBrothers.filterMap (fun b =>
      (getUnavailabilityReason b position week).map (fun reason => (b, reason))) }

/- The scheduling engine (scheduleWeek with the guarantee pass). -/

/-- Options record; an absent skipPositions or preferredAudioVideo is the
empty list, an absent forceAssignments entry is none. -/
structure SchedulingOptions where
  skipPositions : List AVPosition
  forceAssignments : AVPosition → Option String
  preferredAudioVideo : List String

def noOptions : SchedulingOptions :=
  { skipPositions := [], forceAssignments := fun _ => none, preferredAudioVideo := [] }

/-- The mutable locals of scheduleWeek: the role map, the two result lists,
the used-this-week set, and the (mutated-in-place) ledger. -/
structure EngineState where
  assignments : AVPosition → Option String
  conflicts : List String
  warnings : List String
  assignedThisWeek : List String
  history : HistoryData

def setAssign (assignments : AVPosition → Option String) (position : AVPosition)
    (value : Option String) : AVPosition → Option String :=
  fun p => if p == position then value else assignments p

def initialEngineState (history : HistoryData) : EngineState :=
  { assignments := fun _ => none, conflicts := [], warnings := [],
    assignedThisWeek := [], history := history }

/-- One entry of the forced-assignments loop of Phase A: write the forced id
verbatim into the role map and mark the person used; a falsy (empty) id is
skipped. -/
def forcedStep (forceAssignments : AVPosition → Option String)
    (st : EngineState) (position : AVPosition) : EngineState :=
  match forceAssignments position with
  | some brotherId =>
    if brotherId != "" then
      { st with assignments := setAssign st.assignments position (some brotherId),
                assignedThisWeek := st.assignedThisWeek.insert brotherId }
    else st
  | none => st

/-- Phase A: apply forced assignments verbatim and mark the people used.
Object.entries iterates the present keys once each; the result does not depend
on key order, so the fold goes over all positions. -/
def applyForced (forceAssignments : AVPosition → Option String)
    (s : EngineState) : EngineState :=
  allAVPositions.foldl (forcedStep forceAssignments) s

/-- The per-brother meeting-part counts computed at the top of scheduleWeek. -/
def bumpCount (counts : List (String × Nat)) (id : String) : List (String × Nat) :=
  match counts.lookup id with
  | some n => counts.map (fun kv => if kv.1 == id then (kv.1, n + 1) else kv)
  | none => counts ++ [(id, 1)]

def countMeetingParts (week : WeeklyMeetingData) : List (String × Nat) :=
  (week.midweekParts ++ week.weekendParts).foldl (fun counts part =>
    match part.assignedBrother with
    | some name =>
      match getBrotherByName name with
      | some brother => bumpCount counts brother.id
      | none => counts
    | none => counts) []

/-- Raw candidate pool of the greedy pass for one position: available
brothers not already assigned this week, projected to ids. -/
def greedyCandidates0 (week : WeeklyMeetingData) (s : EngineState)
    (position : AVPosition) : List String :=
  ((getAvailableBrothersForPosition position week).availableBrothers.filter
    (fun b => !s.assignedThisWeek.contains b.id)).map (fun b => b.id)

/-- The condition of the xian mic-once-monthly exclusion inside the greedy
pass. -/
def greedyXianBlocked (week : WeeklyMeetingData) (yearMonth : String)
    (s : EngineState) (position : AVPosition) : Bool :=
  micPositions.contains position &&
    (greedyCandidates0 week s position).contains "xian-salazar" &&
    !canXianDoMicThisMonth s.history yearMonth

/-- Raw pool minus the quota-blocked person when the exclusion fires. -/
def greedyCandidates1 (week : WeeklyMeetingData) (yearMonth : String)
    (s : EngineState) (position : AVPosition) : List String :=
  if greedyXianBlocked week yearMonth s position then
    (greedyCandidates0 week s position).filter (fun id => id != "xian-salazar")
  else greedyCandidates0 week s position

/-- Candidate pool of one greedy iteration: raw pool, minus the quota-blocked
person, narrowed to the audio/video preference list when the narrowed pool is
nonempty. (The TS computes this chain once together with the warning; the
warning side is greedyWarnings over the same condition.) -/
def greedyCandidates (week : WeeklyMeetingData) (yearMonth : String)
    (options : SchedulingOptions) (s : EngineState) (position : AVPosition) :
    List String :=
  let candidates1 := greedyCandidates1 week yearMonth s position
  if (position == .audio || position == .video) &&
     !options.preferredAudioVideo.isEmpty then
    let preferred := candidates1.filter (fun id =>
      options.preferredAudioVideo.contains id)
    if !preferred.isEmpty then preferred else candidates1
  else candidates1

/-- Warning list after one greedy iteration: the quota exclusion appends a
warning string (never an error). -/
def greedyWarnings (week : WeeklyMeetingData) (yearMonth : String)
    (s : EngineState) (position : AVPosition) : List String :=
  if greedyXianBlocked week yearMonth s position then
    s.warnings ++ ["Xian excluded from " ++ position.key ++
                   " - already assigned mic this month"]
  else s.warnings

/-- One iteration of the greedy pass (Phase B) for one position. -/
def greedyStep (week : WeeklyMeetingData) (yearMonth : String)
    (meetingPartCounts : List (String × Nat)) (options : SchedulingOptions)
    (s : EngineState) (position : AVPosition) : EngineState :=
  if (s.assignments position).isSome then s
  else if options.skipPositions.contains position then s
  else
    match sortBrothersByFairness (greedyCandidates week yearMonth options s position)
      s.history position week.weekOf meetingPartCounts with
    | [] =>
      { s with conflicts := s.conflicts ++ ["No available brothers for " ++ position.key],
               warnings := greedyWarnings week yearMonth s position }
    | selectedBrother :: _ =>
      { s with
        assignments := setAssign s.assignments position (some selectedBrother),
        assignedThisWeek := s.assignedThisWeek.insert selectedBrother,
        history := addAssignment s.history selectedBrother position week.weekOf,
        warnings := greedyWarnings week yearMonth s position }

/-- One iteration of the re-housing scan for the displaced brother. The TS
loop breaks once the displaced brother is back in the used set; since every
later iteration would be a no-op at that point, the break is modelled as a
guard. -/
def rehouseStep (week : WeeklyMeetingData) (displaced : String)
    (s : EngineState) (fallbackPos : AVPosition) : EngineState :=
  match s.assignments fallbackPos with
  | some holder =>
    if s.assignedThisWeek.contains holder then s
    else s
  | none =>
    if s.assignedThisWeek.contains displaced then s
    else if (getAvailableBrothersForPosition fallbackPos week).availableBrothers.any
        (fun b => b.id == displaced) then
      { s with
        assignments := setAssign s.assignments fallbackPos (some displaced),
        assignedThisWeek := s.assignedThisWeek.insert displaced,
        history := addAssignment s.history displaced fallbackPos week.weekOf }
    else s

/-- One iteration of the guarantee pass (Phase C) for one priority brother:
find the occupied eligible position whose non-priority holder has the highest
score, displace that holder, take the position, then try to re-house the
displaced brother scanning positions in reverse priority order. -/
def priorityStep (week : WeeklyMeetingData) (s : EngineState)
    (priorityId : String) : EngineState :=
  if s.assignedThisWeek.contains priorityId then s
  else
    let eligiblePositions := schedulingPriority.filter (fun pos =>
      (getAvailableBrothersForPosition pos week).availableBrothers.any
        (fun b => b.id == priorityId))
    if eligiblePositions.isEmpty then s
    else
      let bestSwap := eligiblePositions.foldl (fun best pos =>
        match s.assignments pos with
        | none => best
        | some currentHolder =>
          if priorityBrotherIds.contains currentHolder then best
          else
            let holderScore := calculateAssignmentScore s.history currentHolder pos
              week.weekOf 0
            match best with
            | none => some (pos, holderScore)
            | some (bp, bs) =>
              if holderScore > bs then some (pos, holderScore) else some (bp, bs))
        none
      match bestSwap with
      | none => s
      | some (bestSwapPos, _) =>
        match s.assignments bestSwapPos with
        | none => s
        | some displaced =>
          let history1 := removeAssignment s.history displaced bestSwapPos week.weekOf
          let used1 := s.assignedThisWeek.erase displaced
          let assignments1 := setAssign s.assignments bestSwapPos (some priorityId)
          let used2 := used1.insert priorityId
          let history2 := addAssignment history1 priorityId bestSwapPos week.weekOf
          let s1 : EngineState :=
            { s with assignments := assignments1, assignedThisWeek := used2,
                     history := history2 }
          schedulingPriority.reverse.foldl (rehouseStep week displaced) s1

/-- The weekly schedule value built at the end of scheduleWeek; the two
nested objects (unavailable, meetingParts) are flattened into fields. -/
structure WeeklySchedule where
  weekOf : String
  midweekDate : String
  weekendDate : String
  assignments : AVPosition → Option String
  unavailableNoAV : List String
  unavailableNoMic : List String
  conflicts : List String
  meetingPartsMidweek : List MeetingPart
  meetingPartsWeekend : List MeetingPart

/-- Result of scheduling a single week. The TS function mutates the history
argument in place; the embedding returns the updated ledger as a field. -/
structure SchedulingResult where
  schedule : WeeklySchedule
  conflicts : List String
  warnings : List String
  history : HistoryData

/-- The engine state after Phase A (forced seeds) and Phase B (greedy pass). -/
def greedyState (week : WeeklyMeetingData) (history : HistoryData)
    (options : SchedulingOptions) : EngineState :=
  let s0 := applyForced options.forceAssignments (initialEngineState history)
  let yearMonth := week.weekOf.take 7
  let meetingPartCounts := countMeetingParts week
  schedulingPriority.foldl (greedyStep week yearMonth meetingPartCounts options) s0

/-- The engine state after Phases A, B and C. -/
def finalState (week : WeeklyMeetingData) (history : HistoryData)
    (options : SchedulingOptions) : EngineState :=
  priorityBrotherIds.foldl (priorityStep week) (greedyState week history options)

def scheduleWeek (week : WeeklyMeetingData) (history : HistoryData)
    (options : SchedulingOptions) : SchedulingResult :=
  let s2 := finalState week history options
  { schedule :=
      { weekOf := week.weekOf, midweekDate := week.midweekDate,
        weekendDate := week.weekendDate, assignments := s2.assignments,
        unavailableNoAV := week.unavailableForAV,
        unavailableNoMic := week.unavailableForMic,
        conflicts := s2.conflicts,
        meetingPartsMidweek := week.midweekParts,
        meetingPartsWeekend := week.weekendParts },
    conflicts := s2.conflicts, warnings := s2.warnings, history := s2.history }

def scheduleMultipleWeeks (weeks : List WeeklyMeetingData) (history : HistoryData)
    (options : SchedulingOptions) : List SchedulingResult :=
  (weeks.foldl (fun (acc : List SchedulingResult × HistoryData) week =>
    let result := scheduleWeek week acc.2 options
    (acc.1 ++ [result], result.history)) ([], history)).1

/-- The body of the validateSchedule loop, rendered as structural recursion
over the position list with the assigned-so-far set as accumulator; errors
are emitted in the same order as the TS pushes. -/
def validateLoop (schedule : WeeklySchedule) :
    List AVPosition → List String → List String
  | [], _ => []
  | position :: rest, assignedBrothers =>
    match schedule.assignments position with
    | none =>
      (position.key ++ " is not assigned") :: validateLoop schedule rest assignedBrothers
    | some brotherId =>
      (if assignedBrothers.contains brotherId then
        [brotherId ++ " is assigned to multiple positions"] else []) ++
      (if schedule.unavailableNoAV.contains brotherId then
        [brotherId ++ " is unavailable for AV but assigned to " ++ position.key]
       else []) ++
      (if micPositions.contains position &&
          schedule.unavailableNoMic.contains brotherId then
        [brotherId ++ " is unavailable for mic but assigned to " ++ position.key]
       else []) ++
      validateLoop schedule rest (assignedBrothers.insert brotherId)

def validateSchedule (schedule : WeeklySchedule) : List String :=
  validateLoop schedule allAVPositions []

/-
Theorems. mergeSort is unsealed so that closed engine runs evaluate.
-/

unseal List.merge List.mergeSort

/- Spec-side definitions for the scoring decomposition (claim C5). Each term
is written from the wording of the spec, to be compared with the monolithic
score function translated from the source. -/

/-- Spec wording: 10 times the count of the prior records of this person for
exactly this position. -/
def specRepeatTerm (history : HistoryData) (brotherId : String)
    (position : AVPosition) : Int :=
  10 * ((history.assignments.filter (fun a =>
    a.brotherId == brotherId && a.position == position)).length : Int)

/-- Spec wording: 5 times the count of the records of this person dated within
the trailing 30 days of the reference date, inclusive, excluding future-dated
records. -/
def specThirtyDayTerm (history : HistoryData) (brotherId : String)
    (referenceDate : String) : Int :=
  5 * ((history.assignments.filter (fun a =>
    a.brotherId == brotherId && isWithinDays 30 referenceDate a.date)).length : Int)

/-- Spec wording: 20 times the count within the trailing 7 days, additive on
top of the 30-day term. -/
def specSevenDayTerm (history : HistoryData) (brotherId : String)
    (referenceDate : String) : Int :=
  20 * ((history.assignments.filter (fun a =>
    a.brotherId == brotherId && isWithinDays 7 referenceDate a.date)).length : Int)

/-- Spec wording: 200 plus 50 times the part count when the part count is
positive, else 0. -/
def specPartTerm (meetingPartCount : Nat) : Int :=
  if meetingPartCount > 0 then 200 + 50 * (meetingPartCount : Int) else 0

/-- Spec wording: plus 25 for the senior tier (elder), minus 25 for the
assistant tier (ministerial servant), minus 15 for the general tier
(publisher), 0 otherwise. -/
def specPrivilegeTerm (brotherId : String) : Int :=
  match getBrotherById brotherId with
  | some brother =>
    match brother.privilege with
    | .elder => 25
    | .ministerial_servant => -25
    | .publisher => -15
    | .unbaptized => 0
  | none => 0

/-- Spec wording: minus max(15, 50 minus 15 times the prior count for this
position) when the person is a guaranteed (priority) person, else 0. -/
def specPriorityBonus (history : HistoryData) (brotherId : String)
    (position : AVPosition) : Int :=
  if priorityBrotherIds.contains brotherId then
    -(max 15 (50 - 15 * ((history.assignments.filter (fun a =>
        a.brotherId == brotherId && a.position == position)).length : Int)))
  else 0

/-- C5 (confirmed): calculateAssignmentScore is exactly the sum of the six
terms the spec lists: the per-position repeat term, the 30-day and 7-day
recency terms, the meeting-part term, the privilege adjustment and the
priority-person bonus. -/
theorem claim_C5_scoring_composition (history : HistoryData) (brotherId : String)
    (position : AVPosition) (referenceDate : String) (meetingPartCount : Nat) :
    calculateAssignmentScore history brotherId position referenceDate meetingPartCount =
      specRepeatTerm history brotherId position +
      specThirtyDayTerm history brotherId referenceDate +
      specSevenDayTerm history brotherId referenceDate +
      specPartTerm meetingPartCount +
      specPrivilegeTerm brotherId +
      specPriorityBonus history brotherId position := by
  have hswap : ∀ (p q : AssignmentHistory → Bool),
      (history.assignments.filter (fun a => p a && q a)).length =
      (history.assignments.filter (fun a => q a && p a)).length := by
    intro p q
    congr 1
    apply List.filter_congr
    intro a _
    rw [Bool.and_comm]
  unfold calculateAssignmentScore specRepeatTerm specThirtyDayTerm specSevenDayTerm
    specPartTerm specPrivilegeTerm specPriorityBonus getAssignmentsForBrother
  simp only [List.filter_filter]
  rw [hswap (fun a => a.brotherId == brotherId) (fun a => a.position == position),
      hswap (fun a => a.brotherId == brotherId) (fun a => isWithinDays 30 referenceDate a.date),
      hswap (fun a => a.brotherId == brotherId) (fun a => isWithinDays 7 referenceDate a.date)]
  cases hb : getBrotherById brotherId with
  | none =>
    split_ifs <;> ring_nf
  | some brother =>
    cases hpb : brother.privilege <;> simp only [hpb] <;> split_ifs <;> ring_nf

/- Concrete inputs used by scenario theorems, counterexamples and witnesses. -/

def noHistory : HistoryData := { assignments := [], lastUpdated := none }

/-- A plain week: no unavailability, no meeting parts. -/
def exWeek : WeeklyMeetingData :=
  { weekOf := "2026-03-06", midweekDate := "2026-03-06", weekendDate := "2026-03-08",
    midweekParts := [], weekendParts := [], wtConductor := none,
    unavailableForAV := [], unavailableForMic := [] }

/-- A second week in the same calendar month. -/
def exWeek2 : WeeklyMeetingData :=
  { exWeek with
      weekOf := "2026-03-13"
      midweekDate := "2026-03-13"
      weekendDate := "2026-03-15" }

/-- C6 (confirmed): privilege-gate scenario, read at the level the spec states
it (the fairness order of a candidate pool and the explicit gate check). With
empty history, a candidate pool holding exactly one senior-tier person
(dandel-cabusas, elder) and one general-tier person (cezar-macasieb,
publisher, not otherwise score-relevant), sorted for the privilege-gated
position: the general-tier person wins the fairness order (the privilege
adjustment scores minus 15 against plus 25 but disqualifies no one — both
candidates survive the sort), while the explicit privilege-gate eligibility
check alone rejects the general-tier person and accepts the senior-tier
person for the gated position. -/
theorem claim_C6_privilege_gate_scenario :
    sortBrothersByFairness ["dandel-cabusas", "cezar-macasieb"] noHistory
      .auditorium "2026-03-06" [] = ["cezar-macasieb", "dandel-cabusas"] ∧
    (getBrotherById "cezar-macasieb").map
      (fun b => hasBrotherRequiredPrivilege b .auditorium) = some false ∧
    (getBrotherById "dandel-cabusas").map
      (fun b => hasBrotherRequiredPrivilege b .auditorium) = some true := by
  refine ⟨by decide, by decide, by decide⟩

/- C9: removeAssignment deletes exactly the first exact match. -/

/-- The find-index-then-splice idiom equals erasing the first match. -/
theorem findIdx_eraseIdx_eq_eraseP {α : Type} (p : α → Bool) (l : List α) :
    (match l.findIdx? p with
     | some i => l.eraseIdx i
     | none => l) = l.eraseP p := by
  induction l with
  | nil => rfl
  | cons a tl ih =>
    rw [List.findIdx?_cons]
    by_cases hpa : p a
    · simp [hpa, List.eraseP_cons]
    · simp only [hpa, if_false, List.findIdx?_succ, List.eraseP_cons, Bool.cond_eq_ite]
      cases h : tl.findIdx? p with
      | none =>
        rw [h] at ih
        simp [hpa, ← ih]
      | some j =>
        rw [h] at ih
        simp [hpa, ← ih, List.eraseIdx_cons_succ]

/-- C9 (confirmed): for every ledger and every exact (person, position, date)
triple, removeAssignment deletes exactly the first record equal in all three
fields when a match exists, leaving all other records in order, and is the
identity (silent no-op) when no exact match exists. -/
theorem claim_C9_removeAssignment_first_match (history : HistoryData)
    (brotherId : String) (position : AVPosition) (date : String) :
    ((∃ a ∈ history.assignments,
        a.brotherId = brotherId ∧ a.position = position ∧ a.date = date) →
      ∃ r l1 l2, history.assignments = l1 ++ r :: l2 ∧
        (r.brotherId = brotherId ∧ r.position = position ∧ r.date = date) ∧
        (∀ b ∈ l1, ¬(b.brotherId = brotherId ∧ b.position = position ∧ b.date = date)) ∧
        (removeAssignment history brotherId position date).assignments = l1 ++ l2) ∧
    ((∀ a ∈ history.assignments,
        ¬(a.brotherId = brotherId ∧ a.position = position ∧ a.date = date)) →
      removeAssignment history brotherId position date = history) := by
  have hrw : (removeAssignment history brotherId position date).assignments =
      history.assignments.eraseP (fun a =>
        a.brotherId == brotherId && a.position == position && a.date == date) := by
    unfold removeAssignment
    rw [← findIdx_eraseIdx_eq_eraseP]
    cases history.assignments.findIdx? (fun a =>
      a.brotherId == brotherId && a.position == position && a.date == date) <;> rfl
  constructor
  · rintro ⟨a, ha, h1, h2, h3⟩
    obtain ⟨r, l1, l2, hnone, hr, hsplit, herase⟩ :=
      List.exists_of_eraseP (p := fun a =>
        a.brotherId == brotherId && a.position == position && a.date == date) ha
        (by simp [h1, h2, h3])
    refine ⟨r, l1, l2, hsplit, ?_, ?_, by rw [hrw, herase]⟩
    · have hr2 := hr
      simp only [Bool.and_eq_true, beq_iff_eq] at hr2
      exact ⟨hr2.1.1, hr2.1.2, hr2.2⟩
    · intro b hb hc
      have hm := hnone b hb
      simp only [Bool.and_eq_true, beq_iff_eq] at hm
      exact hm ⟨⟨hc.1, hc.2.1⟩, hc.2.2⟩
  · intro hnone
    have : history.assignments.eraseP (fun a =>
        a.brotherId == brotherId && a.position == position && a.date == date) =
        history.assignments := by
      apply List.eraseP_of_forall_not
      intro a ha
      simpa using hnone a ha
    unfold removeAssignment at hrw ⊢
    cases hf : history.assignments.findIdx? (fun a =>
      a.brotherId == brotherId && a.position == position && a.date == date) with
    | none => rfl
    | some i =>
      rw [hf] at hrw
      simp only [hf]
      have hasg : history.assignments.eraseIdx i = history.assignments := by
        simpa [hf] using hrw.trans this
      rw [hasg]

/-- Ledger used by the C9 witness: a duplicate pair surrounds a different
record. -/
def exHist9 : HistoryData :=
  { assignments :=
      [{ brotherId := "a", position := .audio, date := "2026-03-06" },
       { brotherId := "b", position := .video, date := "2026-03-06" },
       { brotherId := "a", position := .audio, date := "2026-03-06" }],
    lastUpdated := none }

/-- Witness for C9 at a concrete ledger: a match exists and is removed at its
first occurrence; a non-matching key leaves the ledger untouched. -/
theorem claim_C9_witness :
    (∃ r l1 l2, exHist9.assignments = l1 ++ r :: l2 ∧
      (r.brotherId = "a" ∧ r.position = .audio ∧ r.date = "2026-03-06") ∧
      (∀ b ∈ l1, ¬(b.brotherId = "a" ∧ b.position = .audio ∧ b.date = "2026-03-06")) ∧
      (removeAssignment exHist9 "a" .audio "2026-03-06").assignments = l1 ++ l2) ∧
    removeAssignment exHist9 "b" .audio "2026-03-06" = exHist9 :=
  ⟨(claim_C9_removeAssignment_first_match exHist9 "a" .audio "2026-03-06").1
      (by decide),
   (claim_C9_removeAssignment_first_match exHist9 "b" .audio "2026-03-06").2
      (by decide)⟩

/- C7: the sort contract of sortBrothersByFairness. -/

/-- C7 (confirmed): for every candidate list, ledger, position, reference date
and part-count map, sortBrothersByFairness returns a permutation of the input,
sorted ascending by score; any two candidates with equal scores keep their
relative input order; and when exactly two candidates tie for the strictly
lowest score, the one appearing earlier in the input is selected (is the head
of the sorted list). -/
theorem claim_C7_stable_fairness_sort (brotherIds : List String)
    (history : HistoryData) (position : AVPosition) (referenceDate : String)
    (meetingPartCounts : List (String × Nat)) :
    (sortBrothersByFairness brotherIds history position referenceDate
      meetingPartCounts).Perm brotherIds ∧
    (sortBrothersByFairness brotherIds history position referenceDate
      meetingPartCounts).Pairwise (fun a b =>
        fairnessScore history position referenceDate meetingPartCounts a ≤
        fairnessScore history position referenceDate meetingPartCounts b) ∧
    (∀ x y, [x, y].Sublist brotherIds →
      fairnessScore history position referenceDate meetingPartCounts x =
        fairnessScore history position referenceDate meetingPartCounts y →
      [x, y].Sublist (sortBrothersByFairness brotherIds history position
        referenceDate meetingPartCounts)) ∧
    (∀ x y, brotherIds.Nodup → x ≠ y → [x, y].Sublist brotherIds →
      fairnessScore history position referenceDate meetingPartCounts x =
        fairnessScore history position referenceDate meetingPartCounts y →
      (∀ z ∈ brotherIds, z ≠ x → z ≠ y →
        fairnessScore history position referenceDate meetingPartCounts x <
        fairnessScore history position referenceDate meetingPartCounts z) →
      (sortBrothersByFairness brotherIds history position referenceDate
        meetingPartCounts).head? = some x) := by
  have hdef : sortBrothersByFairness brotherIds history position referenceDate
      meetingPartCounts = brotherIds.mergeSort (fun a b =>
        decide (fairnessScore history position referenceDate meetingPartCounts a ≤
                fairnessScore history position referenceDate meetingPartCounts b)) := by
    unfold sortBrothersByFairness fairnessScore
    rfl
  have htrans : ∀ (a b c : String),
      (decide (fairnessScore history position referenceDate meetingPartCounts a ≤
               fairnessScore history position referenceDate meetingPartCounts b)) = true →
      (decide (fairnessScore history position referenceDate meetingPartCounts b ≤
               fairnessScore history position referenceDate meetingPartCounts c)) = true →
      (decide (fairnessScore history position referenceDate meetingPartCounts a ≤
               fairnessScore history position referenceDate meetingPartCounts c)) = true := by
    intro a b c hab hbc
    simp only [decide_eq_true_eq] at hab hbc ⊢
    exact le_trans hab hbc
  have htotal : ∀ (a b : String),
      ((decide (fairnessScore history position referenceDate meetingPartCounts a ≤
                fairnessScore history position referenceDate meetingPartCounts b)) ||
       (decide (fairnessScore history position referenceDate meetingPartCounts b ≤
                fairnessScore history position referenceDate meetingPartCounts a))) = true := by
    intro a b
    simp [le_total]
  have hperm : (sortBrothersByFairness brotherIds history position referenceDate
      meetingPartCounts).Perm brotherIds := by
    rw [hdef]
    exact List.mergeSort_perm brotherIds _
  have hsorted : (sortBrothersByFairness brotherIds history position referenceDate
      meetingPartCounts).Pairwise (fun a b =>
        fairnessScore history position referenceDate meetingPartCounts a ≤
        fairnessScore history position referenceDate meetingPartCounts b) := by
    rw [hdef]
    exact (List.sorted_mergeSort htrans htotal brotherIds).imp
      (fun h => by simpa using h)
  have hstable : ∀ x y, [x, y].Sublist brotherIds →
      fairnessScore history position referenceDate meetingPartCounts x =
        fairnessScore history position referenceDate meetingPartCounts y →
      [x, y].Sublist (sortBrothersByFairness brotherIds history position
        referenceDate meetingPartCounts) := by
    intro x y hsub heq
    rw [hdef]
    apply List.sublist_mergeSort htrans htotal _ hsub
    simp [heq]
  refine ⟨hperm, hsorted, hstable, ?_⟩
  intro x y hnd hne hsub heq hmin
  have hsubout := hstable x y hsub heq
  have hxout : x ∈ sortBrothersByFairness brotherIds history position
      referenceDate meetingPartCounts := hsubout.subset (by simp)
  cases hout : sortBrothersByFairness brotherIds history position referenceDate
      meetingPartCounts with
  | nil => rw [hout] at hxout; cases hxout
  | cons h t =>
    have hhead : ∀ b ∈ t,
        fairnessScore history position referenceDate meetingPartCounts h ≤
        fairnessScore history position referenceDate meetingPartCounts b := by
      have := hsorted
      rw [hout, List.pairwise_cons] at this
      exact this.1
    have hhmem : h ∈ brotherIds := hperm.subset (by rw [hout]; simp)
    by_cases hx : h = x
    · rw [hx]; rfl
    · exfalso
      by_cases hy : h = y
      · have hyt : y ∈ t := by
          rw [hout] at hsubout
          rcases List.sublist_cons_iff.mp hsubout with h1 | ⟨r, hr, hrs⟩
          · exact (h1.subset (by simp) : y ∈ t)
          · exact absurd (by simpa [hy] using congrArg List.head? hr) (by simpa using hne.symm ∘ Eq.symm)
        have hnodup : (h :: t).Nodup := by
          rw [← hout]
          exact hperm.symm.nodup hnd
        rw [List.nodup_cons] at hnodup
        exact hnodup.1 (hy ▸ hyt)
      · have hlt := hmin h hhmem hx hy
        have hxin : x ∈ h :: t := by rw [← hout]; exact hxout
        rcases List.mem_cons.mp hxin with h1 | h2
        · exact hx (h1.symm)
        · have := hhead x h2
          rw [heq] at hlt
          omega

/-- Witness for C7 at a concrete tie: two elders with empty history score
equally; the earlier of the two input candidates is selected. -/
theorem claim_C7_witness :
    ("dandel-cabusas" ≠ "raffy-mondares") ∧
    fairnessScore noHistory .audio "2026-03-06" [] "dandel-cabusas" =
      fairnessScore noHistory .audio "2026-03-06" [] "raffy-mondares" ∧
    (sortBrothersByFairness ["dandel-cabusas", "raffy-mondares"] noHistory .audio
      "2026-03-06" []).head? = some "dandel-cabusas" :=
  ⟨by decide, by decide,
   (claim_C7_stable_fairness_sort ["dandel-cabusas", "raffy-mondares"] noHistory
      .audio "2026-03-06" []).2.2.2 "dandel-cabusas" "raffy-mondares"
     (by decide) (by decide) (by decide) (by decide) (by decide)⟩


/- C10: forced assignments seed the map and the used set but write nothing to
the ledger, so they can never feed a later score, recency window or monthly
quota count (all of which are functions of the ledger alone). -/

theorem forcedStep_frame (f : AVPosition → Option String) (st : EngineState)
    (q : AVPosition) :
    (forcedStep f st q).history = st.history ∧
    (forcedStep f st q).conflicts = st.conflicts ∧
    (forcedStep f st q).warnings = st.warnings := by
  unfold forcedStep
  cases f q with
  | none => exact ⟨rfl, rfl, rfl⟩
  | some b =>
    by_cases hb : b != "" <;> simp [hb]

theorem forcedFold_frame (f : AVPosition → Option String) (ps : List AVPosition) :
    ∀ st : EngineState,
    (ps.foldl (forcedStep f) st).history = st.history ∧
    (ps.foldl (forcedStep f) st).conflicts = st.conflicts ∧
    (ps.foldl (forcedStep f) st).warnings = st.warnings := by
  induction ps with
  | nil => intro st; exact ⟨rfl, rfl, rfl⟩
  | cons q qs ih =>
    intro st
    simp only [List.foldl_cons]
    obtain ⟨h1, h2, h3⟩ := ih (forcedStep f st q)
    obtain ⟨g1, g2, g3⟩ := forcedStep_frame f st q
    exact ⟨h1.trans g1, h2.trans g2, h3.trans g3⟩

theorem forcedStep_keeps_entry (f : AVPosition → Option String) (st : EngineState)
    (q p : AVPosition) (b : String) (hf : f p = some b)
    (h : st.assignments p = some b) :
    (forcedStep f st q).assignments p = some b := by
  unfold forcedStep
  cases hq : f q with
  | none => exact h
  | some c =>
    by_cases hc : c != ""
    · simp only [hc, if_true]
      unfold setAssign
      by_cases hpq : p = q
      · subst hpq
        rw [hf] at hq
        simp [← hq]
      · simp [beq_iff_eq, hpq, h]
    · simp only [hc, if_false]
      exact h

theorem forcedStep_keeps_used (f : AVPosition → Option String) (st : EngineState)
    (q : AVPosition) (b : String) (h : b ∈ st.assignedThisWeek) :
    b ∈ (forcedStep f st q).assignedThisWeek := by
  unfold forcedStep
  cases f q with
  | none => exact h
  | some c =>
    by_cases hc : c != ""
    · simp only [hc, if_true]
      exact List.mem_insert_iff.mpr (Or.inr h)
    · simp only [hc, if_false]
      exact h

theorem forcedFold_marks (f : AVPosition → Option String) (ps : List AVPosition) :
    ∀ (st : EngineState) (p : AVPosition) (b : String),
    f p = some b → b ≠ "" →
    (p ∈ ps ∨ (st.assignments p = some b ∧ b ∈ st.assignedThisWeek)) →
    (ps.foldl (forcedStep f) st).assignments p = some b ∧
    b ∈ (ps.foldl (forcedStep f) st).assignedThisWeek := by
  induction ps with
  | nil =>
    intro st p b _ _ h
    rcases h with h | h
    · cases h
    · exact h
  | cons q qs ih =>
    intro st p b hf hb h
    simp only [List.foldl_cons]
    rcases h with hmem | ⟨ha, hu⟩
    · rcases List.mem_cons.mp hmem with hpq | hqs
      · subst hpq
        apply ih _ p b hf hb
        right
        constructor
        · unfold forcedStep
          rw [hf]
          simp only [bne_iff_ne, ne_eq, hb, not_false_eq_true, if_true]
          unfold setAssign
          simp
        · unfold forcedStep
          rw [hf]
          simp only [bne_iff_ne, ne_eq, hb, not_false_eq_true, if_true]
          exact List.mem_insert_iff.mpr (Or.inl rfl)
      · exact ih _ p b hf hb (Or.inl hqs)
    · exact ih _ p b hf hb
        (Or.inr ⟨forcedStep_keeps_entry f st q p b hf ha,
                 forcedStep_keeps_used f st q b hu⟩)

/-- C10 (confirmed): Phase A writes every forced (position, person) entry with
a nonempty id verbatim into the role map and marks the person used-this-week,
while leaving the ledger (and the conflict and warning lists) untouched;
consequently the fairness score and the monthly quota check, which read only
the ledger, are unchanged by forced assignments, in this week and in every
later week of a batch. -/
theorem claim_C10_forced_assignments_frame (forceAssignments : AVPosition → Option String)
    (s : EngineState) :
    (applyForced forceAssignments s).history = s.history ∧
    (applyForced forceAssignments s).conflicts = s.conflicts ∧
    (applyForced forceAssignments s).warnings = s.warnings ∧
    (∀ p b, forceAssignments p = some b → b ≠ "" →
      (applyForced forceAssignments s).assignments p = some b ∧
      b ∈ (applyForced forceAssignments s).assignedThisWeek) ∧
    (∀ brotherId position referenceDate meetingPartCount,
      calculateAssignmentScore (applyForced forceAssignments s).history brotherId
        position referenceDate meetingPartCount =
      calculateAssignmentScore s.history brotherId position referenceDate
        meetingPartCount) ∧
    (∀ yearMonth,
      canXianDoMicThisMonth (applyForced forceAssignments s).history yearMonth =
      canXianDoMicThisMonth s.history yearMonth) := by
  obtain ⟨h1, h2, h3⟩ := forcedFold_frame forceAssignments allAVPositions s
  refine ⟨h1, h2, h3, ?_, ?_, ?_⟩
  · intro p b hf hb
    apply forcedFold_marks forceAssignments allAVPositions s p b hf hb
    left
    cases p <;> decide
  · intro brotherId position referenceDate meetingPartCount
    unfold applyForced
    rw [h1]
  · intro yearMonth
    unfold applyForced
    rw [h1]

/-- Witness for C10: a concrete forced seed (xian on rightMic) lands in the
map and the used set while the ledger stays empty. -/
theorem claim_C10_witness :
    ((fun p => if p == AVPosition.rightMic then some "xian-salazar" else none)
        AVPosition.rightMic = some "xian-salazar") ∧
    ("xian-salazar" ≠ "") ∧
    ((applyForced (fun p => if p == AVPosition.rightMic then some "xian-salazar" else none)
        (initialEngineState noHistory)).assignments .rightMic = some "xian-salazar" ∧
      "xian-salazar" ∈ (applyForced
        (fun p => if p == AVPosition.rightMic then some "xian-salazar" else none)
        (initialEngineState noHistory)).assignedThisWeek) ∧
    (applyForced (fun p => if p == AVPosition.rightMic then some "xian-salazar" else none)
        (initialEngineState noHistory)).history = noHistory :=
  ⟨rfl, by decide,
   (claim_C10_forced_assignments_frame
      (fun p => if p == AVPosition.rightMic then some "xian-salazar" else none)
      (initialEngineState noHistory)).2.2.2.1 .rightMic "xian-salazar" rfl (by decide),
   (claim_C10_forced_assignments_frame
      (fun p => if p == AVPosition.rightMic then some "xian-salazar" else none)
      (initialEngineState noHistory)).1⟩

/- C2: what validateSchedule actually checks. -/

/-- The validation loop returns no errors exactly when every listed position
is assigned, no holder is in the seen set or the literal noAV list, no mic
holder is in the literal noMic list, and no two listed positions share a
holder. -/
theorem validateLoop_eq_nil_iff (schedule : WeeklySchedule) :
    ∀ (ps : List AVPosition) (seen : List String),
    (validateLoop schedule ps seen = [] ↔
      ((∀ p ∈ ps, (schedule.assignments p).isSome) ∧
       (∀ p ∈ ps, ∀ b, schedule.assignments p = some b →
          b ∉ seen ∧ b ∉ schedule.unavailableNoAV ∧
          (p ∈ micPositions → b ∉ schedule.unavailableNoMic)) ∧
       List.Pairwise (fun p q => ∀ b c, schedule.assignments p = some b →
          schedule.assignments q = some c → b ≠ c) ps)) := by
  intro ps
  induction ps with
  | nil =>
    intro seen
    simp [validateLoop]
  | cons p qs ih =>
    intro seen
    unfold validateLoop
    cases hp : schedule.assignments p with
    | none =>
      constructor
      · intro h; exact absurd h (List.cons_ne_nil _ _)
      · rintro ⟨h1, -, -⟩
        have := h1 p (List.mem_cons_self p qs)
        rw [hp] at this
        cases this
    | some b =>
      rw [List.append_eq_nil, List.append_eq_nil, List.append_eq_nil]
      constructor
      · rintro ⟨⟨⟨h1, h2⟩, h3⟩, h4⟩
        have hseen : b ∉ seen := by
          by_cases hc : seen.contains b
          · rw [if_pos hc] at h1; exact absurd h1 (List.cons_ne_nil _ _)
          · simpa using hc
        have hav : b ∉ schedule.unavailableNoAV := by
          by_cases hc : schedule.unavailableNoAV.contains b
          · rw [if_pos hc] at h2; exact absurd h2 (List.cons_ne_nil _ _)
          · simpa using hc
        have hmic : p ∈ micPositions → b ∉ schedule.unavailableNoMic := by
          intro hpm
          by_cases hc : schedule.unavailableNoMic.contains b
          · have hcond : (micPositions.contains p && schedule.unavailableNoMic.contains b) = true := by
              simp only [Bool.and_eq_true]
              exact ⟨by simpa using hpm, hc⟩
            rw [if_pos hcond] at h3; exact absurd h3 (List.cons_ne_nil _ _)
          · simpa using hc
        obtain ⟨g1, g2, g3⟩ := (ih (seen.insert b)).mp h4
        refine ⟨?_, ?_, ?_⟩
        · intro q hq
          rcases List.mem_cons.mp hq with rfl | hq2
          · rw [hp]; rfl
          · exact g1 q hq2
        · intro q hq c hc
          rcases List.mem_cons.mp hq with rfl | hq2
          · rw [hp] at hc
            cases hc
            exact ⟨hseen, hav, hmic⟩
          · have hg := g2 q hq2 c hc
            exact ⟨fun hcseen => hg.1 (List.mem_insert_iff.mpr (Or.inr hcseen)),
                   hg.2.1, hg.2.2⟩
        · rw [List.pairwise_cons]
          refine ⟨?_, g3⟩
          intro q hq c d hc hd
          rw [hp] at hc
          cases hc
          have hg := (g2 q hq d hd).1
          intro hcd
          exact hg (List.mem_insert_iff.mpr (Or.inl hcd.symm))
      · rintro ⟨h1, h2, h3⟩
        obtain ⟨hseen, hav, hmic⟩ := h2 p (List.mem_cons_self p qs) b hp
        rw [List.pairwise_cons] at h3
        have hseenb : seen.contains b = false := by simpa using hseen
        have havb : schedule.unavailableNoAV.contains b = false := by simpa using hav
        have hmicb : (micPositions.contains p && schedule.unavailableNoMic.contains b) = false := by
          by_cases hpm : p ∈ micPositions
          · have hcm : schedule.unavailableNoMic.contains b = false := by
              simpa using hmic hpm
            simp only [hcm, Bool.and_false]
          · have hcp : micPositions.contains p = false := by simpa using hpm
            simp only [hcp, Bool.false_and]
        have e4 : validateLoop schedule qs (seen.insert b) = [] := by
          apply (ih (seen.insert b)).mpr
          refine ⟨fun q hq => h1 q (List.mem_cons_of_mem p hq), ?_, h3.2⟩
          intro q hq c hc
          obtain ⟨c1, c2, c3⟩ := h2 q (List.mem_cons_of_mem p hq) c hc
          refine ⟨?_, c2, c3⟩
          intro hcin
          rcases List.mem_insert_iff.mp hcin with hcb | hcs
          · exact h3.1 q hq b c hp hc hcb.symm
          · exact c1 hcs
        exact ⟨⟨⟨by simp only [hseenb, Bool.false_eq_true, if_false],
                  by simp only [havb, Bool.false_eq_true, if_false]⟩,
                 by simp only [hmicb, Bool.false_eq_true, if_false]⟩, e4⟩

/-- Every position occurs in the fixed position list. -/
theorem allAVPositions_complete : ∀ p : AVPosition, p ∈ allAVPositions := by
  intro p
  cases p <;> decide

/-- C2 as amended (corrected): validateSchedule returns an empty list iff
every position is assigned, no person holds two positions, no assigned id
appears verbatim in the noAV name list, and no mic-position holder appears
verbatim in the noMic name list. It does not check the privilege gate or the
video-eligibility subset at all, it compares ids against raw name strings,
and an unfilled position is itself reported as a violation (so emptiness also
demands a fully filled map). -/
theorem claim_C2_amended (schedule : WeeklySchedule) :
    validateSchedule schedule = [] ↔
      ((∀ p : AVPosition, (schedule.assignments p).isSome) ∧
       (∀ p q b, schedule.assignments p = some b →
          schedule.assignments q = some b → p = q) ∧
       (∀ p b, schedule.assignments p = some b → b ∉ schedule.unavailableNoAV) ∧
       (∀ p b, p ∈ micPositions → schedule.assignments p = some b →
          b ∉ schedule.unavailableNoMic)) := by
  unfold validateSchedule
  rw [validateLoop_eq_nil_iff schedule allAVPositions []]
  constructor
  · rintro ⟨h1, h2, h3⟩
    refine ⟨fun p => h1 p (allAVPositions_complete p), ?_, ?_, ?_⟩
    · intro p q b hp hq
      by_contra hpq
      have hsub : [p, q].Sublist allAVPositions ∨ [q, p].Sublist allAVPositions := by
        cases p <;> cases q <;> first | (exact absurd rfl hpq) | decide
      rcases hsub with hs | hs
      · exact List.pairwise_iff_forall_sublist.mp h3 hs b b hp hq rfl
      · exact List.pairwise_iff_forall_sublist.mp h3 hs b b hq hp rfl
    · intro p b hp
      exact (h2 p (allAVPositions_complete p) b hp).2.1
    · intro p b hm hp
      exact (h2 p (allAVPositions_complete p) b hp).2.2 hm
  · rintro ⟨h1, h2, h3, h4⟩
    refine ⟨fun p _ => h1 p, ?_, ?_⟩
    · intro p _ b hp
      exact ⟨List.not_mem_nil b, h3 p b hp, fun hm => h4 p b hm hp⟩
    · apply List.pairwise_iff_forall_sublist.mpr
      intro p q hs b c hp hq hbc
      subst hbc
      have : p = q := h2 p q b hp hq
      subst this
      have hnd : [p, p].Nodup := hs.nodup (by decide)
      simp at hnd

/-- A fully assigned schedule that puts a publisher (cezar-macasieb) on the
privilege-gated auditorium position and a non-video-eligible brother
(edmer-sapla) on video. -/
def exBadSchedule : WeeklySchedule :=
  { weekOf := "2026-03-06", midweekDate := "2026-03-06", weekendDate := "2026-03-08",
    assignments := fun p =>
      match p with
      | .audio => some "jonas-santiso"
      | .video => some "edmer-sapla"
      | .avAssistant => some "jayr-sullano"
      | .rightMic => some "xian-salazar"
      | .leftMic => some "jared-nieva"
      | .frontStage => some "ralph-arugay"
      | .auditorium => some "cezar-macasieb"
      | .entrance1 => some "dandel-cabusas"
      | .entrance2 => some "raffy-mondares",
    unavailableNoAV := [], unavailableNoMic := [], conflicts := [],
    meetingPartsMidweek := [], meetingPartsWeekend := [] }

/-- The same schedule with audio left unassigned. -/
def exGapSchedule : WeeklySchedule :=
  { exBadSchedule with
      assignments := fun p =>
        if p == .audio then none else exBadSchedule.assignments p }

/-- Counterexample to C2 as stated: a map that violates invariants 4 and 5
of the spec (privilege gate, video subset) passes validateSchedule with no
violations, and a map whose only flaw is one unfilled position is reported
as a violation. -/
theorem claim_C2_counterexample :
    validateSchedule exBadSchedule = [] ∧
    exBadSchedule.assignments .auditorium = some "cezar-macasieb" ∧
    (getBrotherById "cezar-macasieb").map
      (fun b => hasBrotherRequiredPrivilege b .auditorium) = some false ∧
    exBadSchedule.assignments .video = some "edmer-sapla" ∧
    "edmer-sapla" ∉ videoEligibleBrotherIds ∧
    validateSchedule exGapSchedule = ["audio is not assigned"] := by
  refine ⟨by decide, by decide, by decide, by decide, by decide, by decide⟩

/-- Witness for the amended C2 at a concrete schedule: the backward use of
the equivalence on a valid map. -/
theorem claim_C2_witness :
    validateSchedule exBadSchedule = [] ∧
    (∀ p : AVPosition, (exBadSchedule.assignments p).isSome) :=
  ⟨by decide, fun p => ((claim_C2_amended exBadSchedule).mp (by decide)).1 p⟩

/- C1: the guarantee property fails on the code. The guarantee pass only
looks for occupied displacement targets; when none exists it does nothing,
even when open positions the guaranteed person is eligible for exist. The
spec (and the comment over the pass, which says it ensures priority brothers
are assigned every week) requires a direct assignment to an open eligible
position in that case. -/

/-- All positions skipped: the greedy pass fills nothing, so the guarantee
pass finds no occupied position to displace from. -/
def skipAllOptions : SchedulingOptions :=
  { skipPositions := allAVPositions, forceAssignments := fun _ => none,
    preferredAudioVideo := [] }

/-- C1 (code_bug): at a week with no unavailability and every position open
(all skipped in the greedy pass), the guaranteed person zach-lucero is
eligible for audio by the very availability check the guarantee pass uses,
audio is unoccupied, yet the returned map contains zach-lucero nowhere — and
no conflict is recorded either. The spec says the guaranteed person is then
assigned directly to an open eligible position. -/
theorem claim_C1_guarantee_gap :
    ((getAvailableBrothersForPosition .audio exWeek).availableBrothers.any
        (fun b => b.id == "zach-lucero") = true) ∧
    (scheduleWeek exWeek noHistory skipAllOptions).schedule.assignments .audio = none ∧
    (∀ p : AVPosition,
      (scheduleWeek exWeek noHistory skipAllOptions).schedule.assignments p ≠
        some "zach-lucero") ∧
    (scheduleWeek exWeek noHistory skipAllOptions).conflicts = [] := by
  refine ⟨by decide, by decide, by decide, by decide⟩

/- C3: the monthly quota binds only the greedy pass. Forced assignments are
applied verbatim with no quota check (and add no ledger record), so a batch
that forces the quota-restricted person onto a mic position every week gives
that person several mic assignments in one month. -/

/-- Options forcing xian-salazar onto rightMic each week (zach-lucero and
john-mahor are forced too so the guarantee pass does not displace the forced
mic seed); every position is skipped in the greedy pass. -/
def forceXianOptions : SchedulingOptions :=
  { skipPositions := allAVPositions,
    forceAssignments := fun p =>
      if p == .rightMic then some "xian-salazar"
      else if p == .audio then some "zach-lucero"
      else if p == .video then some "john-mahor"
      else none,
    preferredAudioVideo := [] }

/-- Counterexample to C3 as stated: a two-week batch in the month 2026-03,
threading one ledger, in which the quota-restricted person receives a
mic-class assignment in both weeks — two in one calendar month. -/
theorem claim_C3_counterexample :
    ((scheduleMultipleWeeks [exWeek, exWeek2] noHistory forceXianOptions).map
      (fun r => r.schedule.assignments .rightMic)) =
        [some "xian-salazar", some "xian-salazar"] ∧
    exWeek.weekOf.take 7 = "2026-03" ∧
    exWeek2.weekOf.take 7 = "2026-03" ∧
    .rightMic ∈ micPositions := by
  refine ⟨by decide, by decide, by decide, by decide⟩

/-- When the quota is exhausted for the month and the position is a mic
position, the quota-restricted person is not in the greedy candidate pool. -/
theorem xian_not_in_greedyCandidates (week : WeeklyMeetingData) (yearMonth : String)
    (options : SchedulingOptions) (s : EngineState) (position : AVPosition)
    (hmic : position ∈ micPositions)
    (hq : canXianDoMicThisMonth s.history yearMonth = false) :
    "xian-salazar" ∉ greedyCandidates week yearMonth options s position := by
  intro hmem
  have hmem1 : "xian-salazar" ∈ greedyCandidates1 week yearMonth s position := by
    unfold greedyCandidates at hmem
    dsimp only at hmem
    split at hmem
    · split at hmem
      · exact (List.mem_filter.mp hmem).1
      · exact hmem
    · exact hmem
  unfold greedyCandidates1 at hmem1
  by_cases hx : "xian-salazar" ∈ greedyCandidates0 week s position
  · have hb : greedyXianBlocked week yearMonth s position = true := by
      unfold greedyXianBlocked
      simp only [Bool.and_eq_true]
      refine ⟨⟨by simpa using hmic, by simpa using hx⟩, by simp [hq]⟩
    rw [if_pos (by simp [hb] : greedyXianBlocked week yearMonth s position = true)] at hmem1
    have := (List.mem_filter.mp hmem1).2
    simp at this
  · have hb : greedyXianBlocked week yearMonth s position = false := by
      have hxc : (greedyCandidates0 week s position).contains "xian-salazar" = false := by
        simpa using hx
      unfold greedyXianBlocked
      rw [hxc]
      simp
    rw [if_neg (by simp [hb])] at hmem1
    exact hx hmem1

/-- C3 as amended (corrected): the greedy pass assigns the quota-restricted
person (xian-salazar) to a mic position only when the ledger at selection
time holds no mic record of that person for the month; forced assignments
(applied verbatim, no ledger write) and the guarantee pass re-housing step
bypass this check, so the batch-wide at-most-one-per-month bound holds only
for greedy selections. -/
theorem claim_C3_amended (week : WeeklyMeetingData) (yearMonth : String)
    (meetingPartCounts : List (String × Nat)) (options : SchedulingOptions)
    (s : EngineState) (position : AVPosition) :
    position ∈ micPositions →
    s.assignments position = none →
    (greedyStep week yearMonth meetingPartCounts options s position).assignments
      position = some "xian-salazar" →
    canXianDoMicThisMonth s.history yearMonth = true := by
  intro hmic hnone hsel
  by_contra hq
  have hqf : canXianDoMicThisMonth s.history yearMonth = false := by
    cases h : canXianDoMicThisMonth s.history yearMonth
    · rfl
    · exact absurd h hq
  unfold greedyStep at hsel
  rw [hnone] at hsel
  simp only [Option.isSome_none, Bool.false_eq_true, if_false] at hsel
  by_cases hskip : options.skipPositions.contains position
  · rw [if_pos hskip] at hsel
    rw [hnone] at hsel
    cases hsel
  · rw [if_neg hskip] at hsel
    split at hsel
    · rw [hnone] at hsel
      cases hsel
    · rename_i sel rest heq
      have hselx : sel = "xian-salazar" := by
        unfold setAssign at hsel
        simpa using hsel
      have hselmem : sel ∈ greedyCandidates week yearMonth options s position := by
        have hm : sel ∈ sel :: rest := List.mem_cons_self sel rest
        rw [← heq] at hm
        unfold sortBrothersByFairness at hm
        exact List.mem_mergeSort.mp hm
      rw [hselx] at hselmem
      exact xian_not_in_greedyCandidates week yearMonth options s position hmic hqf hselmem

/-- A week in which every brother except xian-salazar is mic-blocked. -/
def exMicWeek : WeeklyMeetingData :=
  { weekOf := "2026-03-06", midweekDate := "2026-03-06", weekendDate := "2026-03-08",
    midweekParts := [], weekendParts := [], wtConductor := none,
    unavailableForAV := [],
    unavailableForMic :=
      ["Jonas Santiso", "Dandel Cabusas", "Raffy Mondares", "Randy Quinol",
       "Matt Mancuso", "Melky Basanes", "Gally Villanueva", "Abraham Peñera",
       "Herman Lucero", "Edgar Silverio", "Jayr Sullano", "Edmer Sapla",
       "Jared Nieva", "Ralph Arugay", "Zach Lucero", "Cezar Macasieb",
       "John Mahor"] }

/-- Witness for the amended C3: a concrete greedy step that selects
xian-salazar for rightMic, at which point the monthly quota is indeed
unspent. -/
theorem claim_C3_witness :
    (AVPosition.rightMic ∈ micPositions) ∧
    ((initialEngineState noHistory).assignments .rightMic = none) ∧
    ((greedyStep exMicWeek "2026-03" [] noOptions (initialEngineState noHistory)
        .rightMic).assignments .rightMic = some "xian-salazar") ∧
    canXianDoMicThisMonth (initialEngineState noHistory).history "2026-03" = true :=
  ⟨by decide, by decide, by decide,
   claim_C3_amended exMicWeek "2026-03" [] noOptions (initialEngineState noHistory)
     .rightMic (by decide) (by decide) (by decide)⟩

/-- A fold preserves any property each step preserves. -/
theorem foldl_preserves {α : Type} {β : Type} (step : β → α → β) (P : β → Prop)
    (l : List α) (init : β) (h : P init)
    (hstep : ∀ b a, a ∈ l → P b → P (step b a)) :
    P (l.foldl step init) := by
  induction l generalizing init with
  | nil => exact h
  | cons x xs ih =>
    exact ih (step init x) (hstep init x (List.mem_cons_self x xs) h)
      (fun b a ha hb => hstep b a (List.mem_cons_of_mem x ha) hb)

/-- A greedy iteration never clears an existing role-map entry. -/
theorem greedyStep_assign_mono (week : WeeklyMeetingData) (yearMonth : String)
    (meetingPartCounts : List (String × Nat)) (options : SchedulingOptions)
    (s : EngineState) (position q : AVPosition)
    (h : (s.assignments q).isSome = true) :
    ((greedyStep week yearMonth meetingPartCounts options s position).assignments q).isSome = true := by
  unfold greedyStep
  split
  · exact h
  · split
    · exact h
    · split
      · exact h
      · simp only [setAssign]
        by_cases hqp : q = position
        · subst hqp
          simp
        · simp only [beq_iff_eq, hqp, if_false]
          exact h

/-- A greedy iteration only appends to the conflict list. -/
theorem greedyStep_conflicts_mono (week : WeeklyMeetingData) (yearMonth : String)
    (meetingPartCounts : List (String × Nat)) (options : SchedulingOptions)
    (s : EngineState) (position : AVPosition) (x : String)
    (h : x ∈ s.conflicts) :
    x ∈ (greedyStep week yearMonth meetingPartCounts options s position).conflicts := by
  unfold greedyStep
  split
  · exact h
  · split
    · exact h
    · split
      · exact List.mem_append_left _ h
      · exact h

/-- A greedy iteration at an unskipped, unassigned position either fills it
or records the no-available-brothers conflict for it. -/
theorem greedyStep_handles (week : WeeklyMeetingData) (yearMonth : String)
    (meetingPartCounts : List (String × Nat)) (options : SchedulingOptions)
    (s : EngineState) (position : AVPosition)
    (hnone : s.assignments position = none)
    (hskip : options.skipPositions.contains position = false) :
    ((greedyStep week yearMonth meetingPartCounts options s position).assignments position).isSome = true ∨
    ("No available brothers for " ++ position.key) ∈
      (greedyStep week yearMonth meetingPartCounts options s position).conflicts := by
  unfold greedyStep
  split
  · rename_i hg
    rw [hnone] at hg
    cases hg
  · split
    · rename_i hg
      rw [hskip] at hg
      cases hg
    · split
      · right
        exact List.mem_append_right _ (List.mem_singleton.mpr rfl)
      · left
        simp [setAssign]

/-- The re-housing scan never touches the conflict or warning lists. -/
theorem rehouseStep_lists (week : WeeklyMeetingData) (displaced : String)
    (s : EngineState) (fallbackPos : AVPosition) :
    (rehouseStep week displaced s fallbackPos).conflicts = s.conflicts ∧
    (rehouseStep week displaced s fallbackPos).warnings = s.warnings := by
  unfold rehouseStep
  split
  · split
    · exact ⟨rfl, rfl⟩
    · exact ⟨rfl, rfl⟩
  · split
    · exact ⟨rfl, rfl⟩
    · split
      · exact ⟨rfl, rfl⟩
      · exact ⟨rfl, rfl⟩

/-- The guarantee pass never touches the conflict or warning lists. -/
theorem priorityStep_lists (week : WeeklyMeetingData) (s : EngineState)
    (priorityId : String) :
    (priorityStep week s priorityId).conflicts = s.conflicts ∧
    (priorityStep week s priorityId).warnings = s.warnings := by
  unfold priorityStep
  split
  · exact ⟨rfl, rfl⟩
  · dsimp only
    split
    · exact ⟨rfl, rfl⟩
    · split
      · exact ⟨rfl, rfl⟩
      · split
        · exact ⟨rfl, rfl⟩
        · rename_i displaced _
          have hfold : ∀ (ps : List AVPosition) (st : EngineState),
              ((ps.foldl (rehouseStep week displaced) st).conflicts = st.conflicts ∧
               (ps.foldl (rehouseStep week displaced) st).warnings = st.warnings) := by
            intro ps
            induction ps with
            | nil => intro st; exact ⟨rfl, rfl⟩
            | cons x xs ih =>
              intro st
              simp only [List.foldl_cons]
              obtain ⟨i1, i2⟩ := ih (rehouseStep week displaced st x)
              obtain ⟨r1, r2⟩ := rehouseStep_lists week displaced st x
              exact ⟨i1.trans r1, i2.trans r2⟩
          obtain ⟨f1, f2⟩ := hfold schedulingPriority.reverse _
          exact ⟨f1, f2⟩

/-- Conflicts and warnings of the final state are exactly those accumulated
by the greedy pass. -/
theorem finalState_lists (week : WeeklyMeetingData) (history : HistoryData)
    (options : SchedulingOptions) :
    (finalState week history options).conflicts = (greedyState week history options).conflicts ∧
    (finalState week history options).warnings = (greedyState week history options).warnings := by
  unfold finalState
  have hfold : ∀ (ids : List String) (st : EngineState),
      ((ids.foldl (priorityStep week) st).conflicts = st.conflicts ∧
       (ids.foldl (priorityStep week) st).warnings = st.warnings) := by
    intro ids
    induction ids with
    | nil => intro st; exact ⟨rfl, rfl⟩
    | cons x xs ih =>
      intro st
      simp only [List.foldl_cons]
      obtain ⟨i1, i2⟩ := ih (priorityStep week st x)
      obtain ⟨p1, p2⟩ := priorityStep_lists week st x
      exact ⟨i1.trans p1, i2.trans p2⟩
  exact hfold priorityBrotherIds _

/-- Every position occurs in the scheduling priority order. -/
theorem schedulingPriority_complete : ∀ p : AVPosition, p ∈ schedulingPriority := by
  intro p
  cases p <;> decide

/-- If a position that the greedy pass was allowed to fill ends the pass
unassigned, the conflict string for it is in the accumulated conflicts. -/
theorem greedyFold_conflict (week : WeeklyMeetingData) (yearMonth : String)
    (meetingPartCounts : List (String × Nat)) (options : SchedulingOptions) :
    ∀ (ps : List AVPosition) (s : EngineState) (p : AVPosition),
    p ∈ ps → options.skipPositions.contains p = false →
    (ps.foldl (greedyStep week yearMonth meetingPartCounts options) s).assignments p = none →
    ("No available brothers for " ++ p.key) ∈
      (ps.foldl (greedyStep week yearMonth meetingPartCounts options) s).conflicts := by
  intro ps
  induction ps with
  | nil =>
    intro s p hmem
    cases hmem
  | cons q qs ih =>
    intro s p hmem hskip hnone
    simp only [List.foldl_cons] at hnone ⊢
    by_cases hqs : p ∈ qs
    · exact ih _ p hqs hskip hnone
    · have hpq : p = q := by
        rcases List.mem_cons.mp hmem with h | h
        · exact h
        · exact absurd h hqs
      subst hpq
      have hsnone : s.assignments p = none := by
        by_contra hs
        have hsome : (s.assignments p).isSome = true := by
          cases hv : s.assignments p
          · exact absurd hv hs
          · rfl
        have hfin : ((qs.foldl (greedyStep week yearMonth meetingPartCounts options)
            (greedyStep week yearMonth meetingPartCounts options s p)).assignments p).isSome = true := by
          apply foldl_preserves (greedyStep week yearMonth meetingPartCounts options)
            (fun st => (st.assignments p).isSome = true)
          · exact greedyStep_assign_mono week yearMonth meetingPartCounts options s p p hsome
          · intro b a _ hb
            exact greedyStep_assign_mono week yearMonth meetingPartCounts options b a p hb
        rw [hnone] at hfin
        cases hfin
      rcases greedyStep_handles week yearMonth meetingPartCounts options s p hsnone hskip with hs | hc
      · have hfin : ((qs.foldl (greedyStep week yearMonth meetingPartCounts options)
            (greedyStep week yearMonth meetingPartCounts options s p)).assignments p).isSome = true := by
          apply foldl_preserves (greedyStep week yearMonth meetingPartCounts options)
            (fun st => (st.assignments p).isSome = true)
          · exact hs
          · intro b a _ hb
            exact greedyStep_assign_mono week yearMonth meetingPartCounts options b a p hb
        rw [hnone] at hfin
        cases hfin
      · apply foldl_preserves (greedyStep week yearMonth meetingPartCounts options)
          (fun st => ("No available brothers for " ++ p.key) ∈ st.conflicts)
        · exact hc
        · intro b a _ hb
          exact greedyStep_conflicts_mono week yearMonth meetingPartCounts options b a _ hb

/-- C8 as amended (corrected): scheduleWeek accumulates all failures into its
result lists and never fails a week. A position whose candidate pool is empty
gets the conflict string appended and is left unassigned by the greedy pass;
it can, however, be filled later by the guarantee pass re-housing step, so
the returned map may assign a position whose conflict string is recorded. A
quota exclusion appends a warning string, never an error; the guarantee pass
adds no conflicts or warnings of its own. -/
theorem claim_C8_amended :
    (∀ (week : WeeklyMeetingData) (history : HistoryData) (options : SchedulingOptions)
       (p : AVPosition),
       options.skipPositions.contains p = false →
       (greedyState week history options).assignments p = none →
       ("No available brothers for " ++ p.key) ∈
         (scheduleWeek week history options).conflicts) ∧
    (∀ (week : WeeklyMeetingData) (yearMonth : String)
       (meetingPartCounts : List (String × Nat)) (options : SchedulingOptions)
       (s : EngineState) (p : AVPosition),
       s.assignments p = none →
       options.skipPositions.contains p = false →
       greedyXianBlocked week yearMonth s p = true →
       ("Xian excluded from " ++ p.key ++ " - already assigned mic this month") ∈
         (greedyStep week yearMonth meetingPartCounts options s p).warnings) ∧
    (∀ (week : WeeklyMeetingData) (history : HistoryData) (options : SchedulingOptions),
       (scheduleWeek week history options).warnings =
         (greedyState week history options).warnings ∧
       (scheduleWeek week history options).conflicts =
         (greedyState week history options).conflicts) := by
  refine ⟨?_, ?_, ?_⟩
  · intro week history options p hskip hnone
    have hconf : (scheduleWeek week history options).conflicts =
        (greedyState week history options).conflicts :=
      (finalState_lists week history options).1
    rw [hconf]
    unfold greedyState at hnone ⊢
    exact greedyFold_conflict week (week.weekOf.take 7) (countMeetingParts week) options
      schedulingPriority _ p (schedulingPriority_complete p) hskip hnone
  · intro week yearMonth meetingPartCounts options s p hnone hskip hblock
    unfold greedyStep
    rw [hnone]
    simp only [Option.isSome_none, Bool.false_eq_true, if_false]
    rw [if_neg (by rw [hskip]; exact Bool.false_ne_true)]
    have hw : ("Xian excluded from " ++ p.key ++ " - already assigned mic this month") ∈
        greedyWarnings week yearMonth s p := by
      unfold greedyWarnings
      rw [if_pos (by simp [hblock])]
      exact List.mem_append_right _ (List.mem_singleton.mpr rfl)
    split
    · exact hw
    · exact hw
  · intro week history options
    exact ⟨(finalState_lists week history options).2, (finalState_lists week history options).1⟩

/-- A stale (outside every recency window) ledger record for zach-lucero. -/
def zachOldRecord (position : AVPosition) : AssignmentHistory :=
  { brotherId := "zach-lucero", position := position, date := "2025-06-05" }

/-- Ledger giving zach-lucero heavy per-position history, so the greedy pass
passes over him everywhere and the guarantee pass must displace someone. -/
def c8History : HistoryData :=
  { assignments :=
      List.replicate 7 (zachOldRecord .audio) ++
      List.replicate 7 (zachOldRecord .video) ++
      List.replicate 7 (zachOldRecord .avAssistant) ++
      List.replicate 7 (zachOldRecord .frontStage),
    lastUpdated := none }

/-- Week in which six brothers are available, mics are blocked for all but
xian-salazar, and both entrances end the greedy pass with an empty pool. The
guarantee pass then displaces jayr-sullano from audio for zach-lucero and
re-houses jayr-sullano onto entrance2 - a position whose conflict string was
recorded. -/
def c8Week : WeeklyMeetingData :=
  { weekOf := "2026-03-06", midweekDate := "2026-03-06", weekendDate := "2026-03-08",
    midweekParts := [], weekendParts := [], wtConductor := none,
    unavailableForAV :=
      ["Jonas Santiso", "Dandel Cabusas", "Raffy Mondares", "Randy Quinol",
       "Matt Mancuso", "Melky Basanes", "Gally Villanueva", "Abraham Peñera",
       "Herman Lucero", "Edgar Silverio", "John Mahor", "Cezar Macasieb"],
    unavailableForMic := ["Zach Lucero", "Ralph Arugay"] }

/-- Counterexample to C8 as stated: the returned week has the conflict
string for entrance2 in its conflict list, yet entrance2 is assigned in the
returned map (filled by the re-housing step after the conflict was
recorded), so an empty-pool position is not left unassigned. -/
theorem claim_C8_counterexample :
    "No available brothers for entrance2" ∈
      (scheduleWeek c8Week c8History noOptions).conflicts ∧
    (scheduleWeek c8Week c8History noOptions).schedule.assignments .entrance2 =
      some "jayr-sullano" := by
  refine ⟨by decide, by decide⟩

/-- Ledger holding one xian-salazar mic record dated in 2026-03. -/
def exHist3m : HistoryData :=
  { assignments :=
      [{ brotherId := "xian-salazar", position := .rightMic, date := "2026-03-06" }],
    lastUpdated := none }

/-- Witness for the amended C8: entrance1 of the counterexample week stays
unassigned and its conflict string is in the returned conflicts; a concrete
quota exclusion puts the warning string into the step warnings. -/
theorem claim_C8_witness :
    (noOptions.skipPositions.contains AVPosition.entrance1 = false ∧
     (greedyState c8Week c8History noOptions).assignments .entrance1 = none ∧
     "No available brothers for entrance1" ∈
       (scheduleWeek c8Week c8History noOptions).conflicts) ∧
    ((initialEngineState exHist3m).assignments .rightMic = none ∧
     greedyXianBlocked exWeek2 "2026-03" (initialEngineState exHist3m) .rightMic = true ∧
     "Xian excluded from rightMic - already assigned mic this month" ∈
       (greedyStep exWeek2 "2026-03" [] noOptions (initialEngineState exHist3m)
         .rightMic).warnings) :=
  ⟨⟨by decide, by decide,
    claim_C8_amended.1 c8Week c8History noOptions .entrance1 (by decide) (by decide)⟩,
   ⟨by decide, by decide,
    claim_C8_amended.2.1 exWeek2 "2026-03" [] noOptions (initialEngineState exHist3m)
      .rightMic (by decide) (by decide) (by decide)⟩⟩

/-- The uniqueness invariant of the engine state: no person id occupies two
positions, and every holder in the map is marked used-this-week. -/
def UniqueState (s : EngineState) : Prop :=
  (∀ p q b, s.assignments p = some b → s.assignments q = some b → p = q) ∧
  (∀ p b, s.assignments p = some b → b ∈ s.assignedThisWeek)

/-- Members of the raw greedy pool are not in the used set. -/
theorem mem_greedyCandidates0_not_used (week : WeeklyMeetingData) (s : EngineState)
    (position : AVPosition) (x : String)
    (hx : x ∈ greedyCandidates0 week s position) :
    x ∉ s.assignedThisWeek := by
  unfold greedyCandidates0 at hx
  obtain ⟨b, hb, hbid⟩ := List.mem_map.mp hx
  have hf := (List.mem_filter.mp hb).2
  rw [hbid] at hf
  simpa using hf

/-- The quota-filtered pool is contained in the raw pool. -/
theorem mem_greedyCandidates1_sub (week : WeeklyMeetingData) (yearMonth : String)
    (s : EngineState) (position : AVPosition) (x : String)
    (hx : x ∈ greedyCandidates1 week yearMonth s position) :
    x ∈ greedyCandidates0 week s position := by
  unfold greedyCandidates1 at hx
  split at hx
  · exact (List.mem_filter.mp hx).1
  · exact hx

/-- The preference-narrowed pool is contained in the quota-filtered pool. -/
theorem mem_greedyCandidates_sub (week : WeeklyMeetingData) (yearMonth : String)
    (options : SchedulingOptions) (s : EngineState) (position : AVPosition) (x : String)
    (hx : x ∈ greedyCandidates week yearMonth options s position) :
    x ∈ greedyCandidates1 week yearMonth s position := by
  unfold greedyCandidates at hx
  dsimp only at hx
  split at hx
  · split at hx
    · exact (List.mem_filter.mp hx).1
    · exact hx
  · exact hx

/-- A greedy iteration preserves the uniqueness invariant: it selects only
candidates outside the used set and only fills empty positions. -/
theorem greedyStep_unique (week : WeeklyMeetingData) (yearMonth : String)
    (meetingPartCounts : List (String × Nat)) (options : SchedulingOptions)
    (s : EngineState) (position : AVPosition) (h : UniqueState s) :
    UniqueState (greedyStep week yearMonth meetingPartCounts options s position) := by
  unfold greedyStep
  split
  · exact h
  · split
    · exact h
    · split
      · exact ⟨h.1, h.2⟩
      · rename_i sel rest heq
        have hselmem : sel ∈ greedyCandidates week yearMonth options s position := by
          have hm : sel ∈ sel :: rest := List.mem_cons_self sel rest
          rw [← heq] at hm
          unfold sortBrothersByFairness at hm
          exact List.mem_mergeSort.mp hm
        have hselused : sel ∉ s.assignedThisWeek :=
          mem_greedyCandidates0_not_used week s position sel
            (mem_greedyCandidates1_sub week yearMonth s position sel
              (mem_greedyCandidates_sub week yearMonth options s position sel hselmem))
        constructor
        · intro p1 q1 b hp1 hq1
          simp only [setAssign] at hp1 hq1
          by_cases hp : p1 = position <;> by_cases hq : q1 = position
          · rw [hp, hq]
          · rw [if_pos (by simp [hp])] at hp1
            rw [if_neg (by simp [hq])] at hq1
            cases hp1
            exact absurd (h.2 q1 sel hq1) hselused
          · rw [if_neg (by simp [hp])] at hp1
            rw [if_pos (by simp [hq])] at hq1
            cases hq1
            exact absurd (h.2 p1 sel hp1) hselused
          · rw [if_neg (by simp [hp])] at hp1
            rw [if_neg (by simp [hq])] at hq1
            exact h.1 p1 q1 b hp1 hq1
        · intro p1 b hp1
          simp only [setAssign] at hp1
          by_cases hp : p1 = position
          · rw [if_pos (by simp [hp])] at hp1
            cases hp1
            exact List.mem_insert_iff.mpr (Or.inl rfl)
          · rw [if_neg (by simp [hp])] at hp1
            exact List.mem_insert_iff.mpr (Or.inr (h.2 p1 b hp1))

/-- A re-housing iteration preserves the uniqueness invariant: the displaced
brother is placed only into an unfilled position while not in the used set. -/
theorem rehouseStep_unique (week : WeeklyMeetingData) (displaced : String)
    (s : EngineState) (fallbackPos : AVPosition) (h : UniqueState s) :
    UniqueState (rehouseStep week displaced s fallbackPos) := by
  unfold rehouseStep
  split
  · split
    · exact h
    · exact h
  · rename_i hfb
    split
    · exact h
    · rename_i hdu
      split
      · have hdused : displaced ∉ s.assignedThisWeek := by simpa using hdu
        constructor
        · intro p1 q1 b hp1 hq1
          simp only [setAssign] at hp1 hq1
          by_cases hp : p1 = fallbackPos <;> by_cases hq : q1 = fallbackPos
          · rw [hp, hq]
          · rw [if_pos (by simp [hp])] at hp1
            rw [if_neg (by simp [hq])] at hq1
            cases hp1
            exact absurd (h.2 q1 displaced hq1) hdused
          · rw [if_neg (by simp [hp])] at hp1
            rw [if_pos (by simp [hq])] at hq1
            cases hq1
            exact absurd (h.2 p1 displaced hp1) hdused
          · rw [if_neg (by simp [hp])] at hp1
            rw [if_neg (by simp [hq])] at hq1
            exact h.1 p1 q1 b hp1 hq1
        · intro p1 b hp1
          simp only [setAssign] at hp1
          by_cases hp : p1 = fallbackPos
          · rw [if_pos (by simp [hp])] at hp1
            cases hp1
            exact List.mem_insert_iff.mpr (Or.inl rfl)
          · rw [if_neg (by simp [hp])] at hp1
            exact List.mem_insert_iff.mpr (Or.inr (h.2 p1 b hp1))
      · exact h

/-- The guarantee pass preserves the uniqueness invariant: the priority
brother is not in the used set when displacing, the display target holder is
removed from both the map entry (overwritten) and the used set, and
re-housing preserves it stepwise. -/
theorem priorityStep_unique (week : WeeklyMeetingData) (s : EngineState)
    (priorityId : String) (h : UniqueState s) :
    UniqueState (priorityStep week s priorityId) := by
  unfold priorityStep
  split
  · exact h
  · rename_i hpu
    have hpused : priorityId ∉ s.assignedThisWeek := by simpa using hpu
    dsimp only
    split
    · exact h
    · split
      · exact h
      · rename_i swap hswap
        split
        · exact h
        · rename_i bestSwapPos bestScore displaced hdisp
          apply foldl_preserves (rehouseStep week displaced) UniqueState
          · constructor
            · intro p1 q1 b hp1 hq1
              simp only [setAssign] at hp1 hq1
              by_cases hp : p1 = bestSwapPos <;> by_cases hq : q1 = bestSwapPos
              · rw [hp, hq]
              · rw [if_pos (by simp [hp])] at hp1
                rw [if_neg (by simp [hq])] at hq1
                cases hp1
                exact absurd (h.2 q1 priorityId hq1) hpused
              · rw [if_neg (by simp [hp])] at hp1
                rw [if_pos (by simp [hq])] at hq1
                cases hq1
                exact absurd (h.2 p1 priorityId hp1) hpused
              · rw [if_neg (by simp [hp])] at hp1
                rw [if_neg (by simp [hq])] at hq1
                exact h.1 p1 q1 b hp1 hq1
            · intro p1 b hp1
              simp only [setAssign] at hp1
              by_cases hp : p1 = bestSwapPos
              · rw [if_pos (by simp [hp])] at hp1
                cases hp1
                exact List.mem_insert_iff.mpr (Or.inl rfl)
              · rw [if_neg (by simp [hp])] at hp1
                have hb : b ∈ s.assignedThisWeek := h.2 p1 b hp1
                have hbd : b ≠ displaced := by
                  intro hbd
                  rw [hbd] at hp1
                  exact hp (h.1 p1 bestSwapPos displaced hp1 hdisp)
                exact List.mem_insert_iff.mpr
                  (Or.inr ((List.mem_erase_of_ne hbd).mpr hb))
          · intro st fb _ hst
            exact rehouseStep_unique week displaced st fb hst

/-- Phase A establishes the uniqueness invariant from the empty initial
state, provided the forced assignments give no person two positions. -/
theorem applyForced_unique (forceAssignments : AVPosition → Option String)
    (history : HistoryData)
    (hinj : ∀ p q b, forceAssignments p = some b → forceAssignments q = some b →
      b ≠ "" → p = q) :
    UniqueState (applyForced forceAssignments (initialEngineState history)) := by
  have hmain : UniqueState (applyForced forceAssignments (initialEngineState history)) ∧
      (∀ p b, (applyForced forceAssignments (initialEngineState history)).assignments p = some b →
        forceAssignments p = some b ∧ b ≠ "") := by
    unfold applyForced
    apply foldl_preserves (forcedStep forceAssignments)
      (fun st => UniqueState st ∧
        (∀ p b, st.assignments p = some b → forceAssignments p = some b ∧ b ≠ ""))
    · refine ⟨⟨?_, ?_⟩, ?_⟩
      · intro p1 q1 b hp1
        cases hp1
      · intro p1 b hp1
        cases hp1
      · intro p1 b hp1
        cases hp1
    · intro st q _ hst
      obtain ⟨⟨hu1, hu2⟩, hforce⟩ := hst
      unfold forcedStep
      cases hq : forceAssignments q with
      | none => exact ⟨⟨hu1, hu2⟩, hforce⟩
      | some c =>
        by_cases hc : c != ""
        · simp only [hc, if_true]
          have hcne : c ≠ "" := by simpa using hc
          refine ⟨⟨?_, ?_⟩, ?_⟩
          · intro p1 q1 b hp1 hq1
            simp only [setAssign] at hp1 hq1
            by_cases hp : p1 = q <;> by_cases hqq : q1 = q
            · rw [hp, hqq]
            · rw [if_pos (by simp [hp])] at hp1
              rw [if_neg (by simp [hqq])] at hq1
              cases hp1
              have := hforce q1 c hq1
              rw [hp]
              exact (hinj q q1 c hq this.1 hcne).symm ▸ rfl
            · rw [if_neg (by simp [hp])] at hp1
              rw [if_pos (by simp [hqq])] at hq1
              cases hq1
              have := hforce p1 c hp1
              rw [hqq]
              exact hinj p1 q c this.1 hq hcne
            · rw [if_neg (by simp [hp])] at hp1
              rw [if_neg (by simp [hqq])] at hq1
              exact hu1 p1 q1 b hp1 hq1
          · intro p1 b hp1
            simp only [setAssign] at hp1
            by_cases hp : p1 = q
            · rw [if_pos (by simp [hp])] at hp1
              cases hp1
              exact List.mem_insert_iff.mpr (Or.inl rfl)
            · rw [if_neg (by simp [hp])] at hp1
              exact List.mem_insert_iff.mpr (Or.inr (hu2 p1 b hp1))
          · intro p1 b hp1
            simp only [setAssign] at hp1
            by_cases hp : p1 = q
            · rw [if_pos (by simp [hp])] at hp1
              cases hp1
              rw [hp]
              exact ⟨hq, hcne⟩
            · rw [if_neg (by simp [hp])] at hp1
              exact hforce p1 b hp1
        · simp only [hc, if_false]
          exact ⟨⟨hu1, hu2⟩, hforce⟩
  exact hmain.1

/-- C4 as amended (corrected): for every week, ledger and options whose
forced assignments do not themselves put one person on two positions, the
weekly role map returned by scheduleWeek never assigns one person id to two
different positions - across the forced seeds, the greedy pass, and the
guarantee pass with displacement and re-housing. -/
theorem claim_C4_amended (week : WeeklyMeetingData) (history : HistoryData)
    (options : SchedulingOptions)
    (hinj : ∀ p q b, options.forceAssignments p = some b →
      options.forceAssignments q = some b → b ≠ "" → p = q) :
    ∀ p q b, (scheduleWeek week history options).schedule.assignments p = some b →
      (scheduleWeek week history options).schedule.assignments q = some b → p = q := by
  have hfin : UniqueState (finalState week history options) := by
    unfold finalState
    apply foldl_preserves (priorityStep week) UniqueState
    · unfold greedyState
      apply foldl_preserves
        (greedyStep week (week.weekOf.take 7) (countMeetingParts week) options)
        UniqueState
      · exact applyForced_unique options.forceAssignments history hinj
      · intro st p _ hst
        exact greedyStep_unique week (week.weekOf.take 7) (countMeetingParts week)
          options st p hst
    · intro st pid _ hst
      exact priorityStep_unique week st pid hst
  exact hfin.1

/-- Manual overrides putting the same person on audio and video. -/
def forceZachTwice : SchedulingOptions :=
  { skipPositions := allAVPositions,
    forceAssignments := fun p =>
      if p == .audio || p == .video then some "zach-lucero" else none,
    preferredAudioVideo := [] }

/-- Counterexample to C4 as stated: with forced assignments seeding the same
person into two positions, the returned map holds zach-lucero at both audio
and video, so the uniqueness claim fails for arbitrary options. -/
theorem claim_C4_counterexample :
    (scheduleWeek exWeek noHistory forceZachTwice).schedule.assignments .audio =
      some "zach-lucero" ∧
    (scheduleWeek exWeek noHistory forceZachTwice).schedule.assignments .video =
      some "zach-lucero" ∧
    AVPosition.audio ≠ AVPosition.video := by
  refine ⟨by decide, by decide, by decide⟩

/-- Witness for the amended C4 at a concrete run without forced entries. -/
theorem claim_C4_witness :
    (∀ p q b, noOptions.forceAssignments p = some b →
      noOptions.forceAssignments q = some b → b ≠ "" → p = q) ∧
    (∀ p q b,
      (scheduleWeek exWeek noHistory noOptions).schedule.assignments p = some b →
      (scheduleWeek exWeek noHistory noOptions).schedule.assignments q = some b →
      p = q) :=
  ⟨(fun _ _ _ hp => nomatch hp),
   claim_C4_amended exWeek noHistory noOptions (fun _ _ _ hp => nomatch hp)⟩
